import Mathlib

/-!
Shallow embedding of the powerpc IOMMU DMA-mapping page cache
(arch/powerpc/kernel/iommu-cache.c, final revision in the file, together
with the static inline wrappers of arch/powerpc/include/asm/iommu-cache.h).

The C code is sequentialized: atomic read-modify-write operations become
pure state updates, kmalloc / xa_store allocation failures never occur
(no claim concerns allocation failure), and the two xarrays become total
functions.  Entries are heap records addressed by numeric ids (the model
of C pointers); the per-host-page chain threaded through `next_map` is
modelled as the list of ids reachable from the chain head, and the two
lock-free FIFO halves are modelled as lists of ids onto which the code
pushes at the head (`xchg` of the list head plus link fix-up).
External effects (`__iommu_free`) and the internal invocation of the
evictor are recorded in an event trace.
-/

namespace IommuCache

/-- enum dma_data_direction (include/linux/dma-direction.h). -/
inductive Dir where
  | DMA_BIDIRECTIONAL
  | DMA_TO_DEVICE
  | DMA_FROM_DEVICE
  | DMA_NONE
deriving DecidableEq, Repr

/-- Modelled from the spec: `DMA_DIR_COMPAT` is defined outside the files
given here (only its call sites appear in iommu-cache.c).  The spec requires
only that it is reflexive and that `BIDIRECTIONAL` is compatible with
everything; we take the least such predicate on the installed direction. -/
def DMA_DIR_COMPAT (installed requested : Dir) : Bool :=
  installed = requested || installed = Dir.DMA_BIDIRECTIONAL

/-- struct iommu_pagecache_entry: the per-DMA-page cache entry.  The two
llist links (`fifo`, `next_map`) are represented positionally by the lists
of the cache state instead of by pointer fields. -/
structure Entry where
  dmapage : Nat
  cpupage : Nat
  count : Int
  direction : Dir
deriving DecidableEq, Repr

/-- #define IOMMU_CACHE_MAX 75 (percent of the total pages). -/
def IOMMU_CACHE_MAX : Nat := 75

/-- #define IOMMU_CACHE_THRES 128 (pages). -/
def IOMMU_CACHE_THRES : Int := 128

/-- #define IOMMU_CACHE_REMOVING 0x0deadbee. -/
def IOMMU_CACHE_REMOVING : Int := 0x0deadbee

/-- External calls observable from the cache: `__iommu_free tbl addr npages`
and the internal call of the evictor `iommu_pagecache_clean tbl count`
(recorded so that theorems can talk about whether an eviction pass ran). -/
inductive Event where
  | unmapCall (dmaAddr : Nat) (npages : Nat)
  | cleanCall (count : Int)
deriving DecidableEq, Repr

/-- The cache state: struct iommu_pagecache together with the entry heap and
the iommu_table constants (`it_page_shift`, and `max_cachesize` as computed
from `it_size` at init).  `heap` maps an entry id (the model of an entry
pointer) to the entry it designates, `none` after kfree.  `dmapages` and
`cpupages` are the two xarrays; a cpupages slot holds the whole chain of
entries hanging off the stored head (empty list = no entry stored). -/
structure St where
  heap : Nat → Option Entry
  dmapages : Nat → Option Nat
  cpupages : Nat → List Nat
  fifoAdd : List Nat
  fifoDel : List Nat
  cachesize : Int
  maxCachesize : Nat
  pageShift : Nat
  nextId : Nat

/-- Pointwise update of an `Option`-valued map. -/
def updO (f : Nat → Option Nat) (k : Nat) (v : Option Nat) : Nat → Option Nat :=
  fun x => if x = k then v else f x

/-- Pointwise update of a chain-valued map. -/
def updC (f : Nat → List Nat) (k : Nat) (v : List Nat) : Nat → List Nat :=
  fun x => if x = k then v else f x

/-- Add `delta` to the count of the entry designated by `id` (the model of
the atomic add/sub on `e->count`); no change if the id designates nothing. -/
def bumpCount (s : St) (id : Nat) (delta : Int) : St :=
  { s with heap := fun x =>
      if x = id then
        match s.heap x with
        | some en => some { en with count := en.count + delta }
        | none => none
      else s.heap x }

/-- atomic_dec(&e->count). -/
def decCount (s : St) (id : Nat) : St := bumpCount s id (-1)

/-- iommu_pagecache_use_one: atomic_fetch_add_unless(&d->count, 1,
-IOMMU_CACHE_REMOVING); succeeds (and increments) iff the prior value was
not -IOMMU_CACHE_REMOVING. -/
def iommu_pagecache_use_one (s : St) (id : Nat) : Bool × St :=
  match s.heap id with
  | none => (false, s)
  | some en =>
      if en.count = -IOMMU_CACHE_REMOVING then (false, s)
      else (true, bumpCount s id 1)

/-- The descending loop of iommu_pagecache_use_range: processes offsets
`i, i-1, ..., 1` (the C loop `for (i = npages - 1; i > 0; i--)`), looking
each offset up in the dmapages xarray, checking its cpu page and direction,
and acquiring it.  Returns the state reached and `none` on success or
`some j` for the offset at which the walk failed. -/
def useRangeGo (dm cp : Nat) (dir : Dir) : Nat → St → St × Option Nat
  | 0, s => (s, none)
  | i + 1, s =>
      match s.dmapages (dm + (i + 1)) with
      | none => (s, some (i + 1))
      | some id =>
          match s.heap id with
          | none => (s, some (i + 1))
          | some en =>
              if en.cpupage ≠ cp + (i + 1) then (s, some (i + 1))
              else if ¬ DMA_DIR_COMPAT en.direction dir then (s, some (i + 1))
              else if en.count = -IOMMU_CACHE_REMOVING then (s, some (i + 1))
              else useRangeGo dm cp dir i (bumpCount s id 1)

/-- The out_reverse loop of iommu_pagecache_use_range: `for (i++; i < npages;
i++)` decrement the entry currently indexed at `dm + i`, if any.  The loop
is phrased structurally on its iteration count `npages - i`: `outReverse dm
i n s` performs the iterations for indices `i, i+1, ..., i+n-1`. -/
def outReverse (dm : Nat) : Nat → Nat → St → St
  | _, 0, s => s
  | i, n + 1, s =>
      outReverse dm (i + 1) n
        (match s.dmapages (dm + i) with
         | some id => decCount s id
         | none => s)

/-- iommu_pagecache_use_range: reserve the entry `d` at offset 0, then walk
from the highest offset down to 1 acquiring each page of the range; on any
failure undo every acquisition (the out_reverse loop followed by
atomic_dec(&d->count)) and report failure. -/
def iommu_pagecache_use_range (s : St) (d : Nat) (npages : Nat) (dir : Dir) :
    Bool × St :=
  match s.heap d with
  | none => (false, s)
  | some en =>
      let dm := en.dmapage
      match iommu_pagecache_use_one s d with
      | (false, s1) => (false, s1)
      | (true, s1) =>
          match useRangeGo dm en.cpupage dir (npages - 1) s1 with
          | (s2, none) => (true, s2)
          | (s2, some j) =>
              let s3 := outReverse dm (j + 1) (npages - (j + 1)) s2
              (false, decCount s3 d)

/-- The llist_for_each_entry walk of iommu_pagecache_use over the chain
stored at the looked-up cpu page: skip entries with a different cpu page or
an incompatible direction, try the range on each remaining entry, and
return the DMA address of the first success. -/
def useChain (p npages : Nat) (dir : Dir) : List Nat → St → Option Nat × St
  | [], s => (none, s)
  | id :: rest, s =>
      match s.heap id with
      | none => useChain p npages dir rest s
      | some en =>
          if p ≠ en.cpupage ∨ ¬ DMA_DIR_COMPAT en.direction dir then
            useChain p npages dir rest s
          else
            match iommu_pagecache_use_range s id npages dir with
            | (true, s') => (some (en.dmapage <<< s.pageShift), s')
            | (false, s') => useChain p npages dir rest s'

/-- iommu_pagecache_use: look the cpu page up in the cpupages xarray and try
every mapping chained there; `none` models DMA_MAPPING_ERROR. -/
def iommu_pagecache_use (s : St) (page npages : Nat) (dir : Dir) :
    Option Nat × St :=
  let p := page >>> s.pageShift
  useChain p npages dir (s.cpupages p) s

/-! ## Coalesced unmap buffer

struct iommu_pagecache_unmap_buffer: a buffer of `(dmabase, size)` runs;
`iommu_pagecache_unmap_add` scans from the most recent run backwards for a
run ending exactly at the new page and extends it, otherwise appends a new
one-page run.  Allocation of the buffer never fails in the model. -/

/-- Backward scan of iommu_pagecache_unmap_add: extend the last run whose
`dmabase + size` equals `q`; `none` if no run matches. -/
def extendRun : List (Nat × Nat) → Nat → Option (List (Nat × Nat))
  | [], _ => none
  | r :: rs, q =>
      match extendRun rs q with
      | some rs' => some (r :: rs')
      | none => if q = r.1 + r.2 then some ((r.1, r.2 + 1) :: rs) else none

/-- iommu_pagecache_unmap_add on the run buffer. -/
def iommu_pagecache_unmap_add (b : List (Nat × Nat)) (q : Nat) :
    List (Nat × Nat) :=
  match extendRun b q with
  | some b' => b'
  | none => b ++ [(q, 1)]

/-- iommu_pagecache_unmap: call __iommu_free once per coalesced run and
subtract the total number of flushed pages from cachesize. -/
def iommu_pagecache_unmap (s : St) (b : List (Nat × Nat)) : St × List Event :=
  ({ s with cachesize := s.cachesize - ((b.map Prod.snd).sum : Nat) },
   b.map fun r => Event.unmapCall (r.1 <<< s.pageShift) r.2)

/-! ## Index removal -/

/-- iommu_pagecache_cpupage_update: republish `chain` as the chain stored at
`cpupage`.  Sequentially the xa_store never collides, so this is a plain
store. -/
def iommu_pagecache_cpupage_update (s : St) (chain : List Nat) (cpupage : Nat) :
    St :=
  { s with cpupages := updC s.cpupages cpupage chain }

/-- iommu_pagecache_entry_remove: xa_erase the chain at the entry's cpu
page, splice the entry out of it and republish the remainder — unless the
entry was alone (slot left empty) or was not found in the chain (the
already-erased slot is then never restored) — and finally xa_erase the
entry's dma page.  The republished chain is computed first, then stored
with the cpupage_update protocol (a plain store in the sequential
model). -/
def iommu_pagecache_entry_remove (s : St) (d : Nat) (en : Entry) : St :=
  let newChain :=
    match s.cpupages en.cpupage with
    | [] => []
    | first :: rest =>
        if first = d then
          (if rest = [] then [] else rest)
        else
          if d ∈ rest then first :: rest.erase d
          else []
  { s with cpupages := updC s.cpupages en.cpupage newChain,
           dmapages := updO s.dmapages en.dmapage none }

/-! ## Eviction -/

/-- The llist_for_each_entry_safe walk of iommu_pagecache_clean over the
detached del-half: claim each entry with atomic_sub_return of
IOMMU_CACHE_REMOVING; a prior count other than 0 means in use, so the entry
is pushed back onto the add-half and its count restored; a prior count of 0
means the entry is removed from both xarrays, its dma page appended to the
unmap buffer, and the entry freed, stopping once `count` entries were
removed.  Returns the state, the unmap buffer, and the unwalked tail. -/
def cleanWalk (K : Int) : List Nat → St → List (Nat × Nat) → Nat →
    St × List (Nat × Nat) × List Nat
  | [], s, b, _ => (s, b, [])
  | d :: rest, s, b, removed =>
      match s.heap d with
      | none => cleanWalk K rest s b removed
      | some en =>
          if en.count - IOMMU_CACHE_REMOVING ≠ -IOMMU_CACHE_REMOVING then
            cleanWalk K rest { s with fifoAdd := d :: s.fifoAdd } b removed
          else
            let s1 := iommu_pagecache_entry_remove s d en
            let s2 := { s1 with heap := fun x => if x = d then none else s1.heap x }
            let b' := iommu_pagecache_unmap_add b en.dmapage
            if ((removed : Int) + 1) ≥ K then (s2, b', rest)
            else cleanWalk K rest s2 b' (removed + 1)

/-- iommu_pagecache_clean: detach the whole del-half, walk it claiming
entries, re-attach the unwalked tail, and flush the coalesced unmap
buffer. -/
def iommu_pagecache_clean (s : St) (K : Int) : St × List Event :=
  match s.fifoDel with
  | [] => (s, [])
  | d :: rest =>
      let s0 := { s with fifoDel := [] }
      let (s1, b, remaining) := cleanWalk K (d :: rest) s0 [] 0
      let s2 := { s1 with fifoDel := remaining }
      iommu_pagecache_unmap s2 b

/-! ## free -/

/-- The per-page loop of iommu_pagecache_free: decrement the count of each
dma page present in the dmapages xarray, and batch the absent ones for
immediate unmap. -/
def freeLoop : Nat → Nat → St → List (Nat × Nat) → St × List (Nat × Nat)
  | _, 0, s, b => (s, b)
  | dmapage, n + 1, s, b =>
      match s.dmapages dmapage with
      | some id => freeLoop (dmapage + 1) n (decCount s id) b
      | none => freeLoop (dmapage + 1) n s (iommu_pagecache_unmap_add b dmapage)

/-- iommu_pagecache_free: decrement each cached page of the range, directly
unmap the uncached ones, then invoke the evictor when the cache size
strictly exceeds the budget, requesting `exceeding + IOMMU_CACHE_THRES`
entries. -/
def iommu_pagecache_free (s : St) (dmaHandle : Nat) (npages : Nat) :
    St × List Event :=
  let (s1, b) := freeLoop (dmaHandle >>> s.pageShift) npages s []
  let (s2, ev1) :=
    match b with
    | [] => (s1, ([] : List Event))
    | _ => iommu_pagecache_unmap s1 b
  let exceeding : Int := s2.cachesize - (s2.maxCachesize : Int)
  if exceeding > 0 then
    let (s3, ev2) := iommu_pagecache_clean s2 (exceeding + IOMMU_CACHE_THRES)
    (s3, ev1 ++ Event.cleanCall (exceeding + IOMMU_CACHE_THRES) :: ev2)
  else (s2, ev1)

/-! ## add -/

/-- The insertion loop of iommu_pagecache_add: for each offset allocate an
entry with count 1, publish it in the dmapages xarray (xa_store returns the
prior binding, which the code ignores unless it is an allocation error),
publish it at the head of the cpupages chain, and push it onto the FIFO
add-half. -/
def addLoop (cp dm : Nat) (dir : Dir) : Nat → Nat → St → St
  | _, 0, s => s
  | i, n + 1, s =>
      addLoop cp dm dir (i + 1) n
        { s with
          heap := fun x => if x = s.nextId then
            some ⟨dm + i, cp + i, 1, dir⟩ else s.heap x,
          dmapages := updO s.dmapages (dm + i) (some s.nextId),
          cpupages := updC s.cpupages (cp + i) (s.nextId :: s.cpupages (cp + i)),
          fifoAdd := s.nextId :: s.fifoAdd,
          nextId := s.nextId + 1 }

/-- iommu_pagecache_add: pre-increment cachesize by the whole request (even
if insertion fails) and run the insertion loop. -/
def iommu_pagecache_add (s : St) (page npages addr : Nat) (dir : Dir) : St :=
  let s0 := { s with cachesize := s.cachesize + (npages : Int) }
  addLoop (page >>> s.pageShift) (addr >>> s.pageShift) dir 0 npages s0

/-! ## init -/

/-- The sentinel entry installed by iommu_pagecache_init (cpupage and
dmapage are -1UL, count is pinned at 1, direction DMA_NONE). -/
def sentinelEntry : Entry :=
  ⟨2 ^ 64 - 1, 2 ^ 64 - 1, 1, Dir.DMA_NONE⟩

/-- iommu_pagecache_init: install the sentinel in both FIFO halves, empty
both xarrays, zero cachesize and fix max_cachesize at
IOMMU_CACHE_MAX percent of it_size. -/
def iommu_pagecache_init (pageShift itSize : Nat) : St :=
  { heap := fun x => if x = 0 then some sentinelEntry else none
    dmapages := fun _ => none
    cpupages := fun _ => []
    fifoAdd := [0]
    fifoDel := [0]
    cachesize := 0
    maxCachesize := IOMMU_CACHE_MAX * itSize / 100
    pageShift := pageShift
    nextId := 1 }

/-! ## Header wrappers (asm/iommu-cache.h, CONFIG_IOMMU_PAGECACHE=y)

`max_cachesize = 0` is the disabled sentinel: add and use become no-ops
(use returns DMA_MAPPING_ERROR) and free forwards to __iommu_free. -/

/-- static inline iommu_pagecache_add wrapper. -/
def iommu_pagecache_add_hdr (s : St) (page npages addr : Nat) (dir : Dir) : St :=
  if s.maxCachesize ≠ 0 then iommu_pagecache_add s page npages addr dir else s

/-- static inline iommu_pagecache_use wrapper. -/
def iommu_pagecache_use_hdr (s : St) (page npages : Nat) (dir : Dir) :
    Option Nat × St :=
  if s.maxCachesize ≠ 0 then iommu_pagecache_use s page npages dir
  else (none, s)

/-- static inline iommu_pagecache_free wrapper. -/
def iommu_pagecache_free_hdr (s : St) (dmaHandle npages : Nat) :
    St × List Event :=
  if s.maxCachesize ≠ 0 then iommu_pagecache_free s dmaHandle npages
  else (s, [Event.unmapCall dmaHandle npages])

/-! ## Specification vocabulary

Counting functions used only to state theorems. -/

/-- How many runs of the buffer cover the page `q` (each run is the
interval `[dmabase, dmabase + size)`). -/
def coverage : List (Nat × Nat) → Nat → Nat
  | [], _ => 0
  | r :: rs, q => (if r.1 ≤ q ∧ q < r.1 + r.2 then 1 else 0) + coverage rs q

/-- How many times the trace unmaps dma page `q` (an `unmapCall a n` event
unmaps the pages `[a >>> shift, a >>> shift + n)`). -/
def eventsCoverage (shift q : Nat) : List Event → Nat
  | [] => 0
  | Event.unmapCall a n :: evs =>
      (if a >>> shift ≤ q ∧ q < a >>> shift + n then 1 else 0) +
        eventsCoverage shift q evs
  | Event.cleanCall _ :: evs => eventsCoverage shift q evs

/-- Number of dma pages of `[p, p + n)` absent from the index `f`. -/
def countNone (f : Nat → Option Nat) : Nat → Nat → Nat
  | _, 0 => 0
  | p, n + 1 => (if f p = none then 1 else 0) + countNone f (p + 1) n

/-- Number of offsets `j` in `[1, i]` whose dmapages slot `dm + j` holds
the entry id `x`. -/
def hits (f : Nat → Option Nat) (dm x : Nat) : Nat → Nat
  | 0 => 0
  | j + 1 => (if f (dm + (j + 1)) = some x then 1 else 0) + hits f dm x j

/-- Iterated eviction passes. -/
def cleanPasses (K : Int) : Nat → St → St
  | 0, s => s
  | m + 1, s => cleanPasses K m (iommu_pagecache_clean s K).1

/-- The configuration of an entry `e` (with record `en`) that the eviction
engine can observe: `e` is live in the heap, owns its dmapages slot, sits in
its cpupages chain and in one of the FIFO halves; no other FIFO-reachable
entry owns the same dma page (each dma page has a unique owner), while the
host page MAY be shared — any FIFO-reachable entry mapping the same host
page is merely required to be published in that host page's chain, the
index consistency the code maintains for every live entry. -/
def entryStuck (s : St) (e : Nat) (en : Entry) : Prop :=
  s.heap e = some en ∧
  s.dmapages en.dmapage = some e ∧
  e ∈ s.cpupages en.cpupage ∧
  (e ∈ s.fifoAdd ∨ e ∈ s.fifoDel) ∧
  ∀ d' ∈ s.fifoAdd ++ s.fifoDel, d' ≠ e →
    ((s.heap d').map Entry.dmapage ≠ some en.dmapage ∧
     ((s.heap d').map Entry.cpupage = some en.cpupage →
       d' ∈ s.cpupages en.cpupage))

/-! ## Concrete states used by the witnesses -/

/-- A fresh cache (page shift 12, 100 iommu pages, budget 75) holding one
4 KiB mapping 0x1000 → 0xD000. -/
def exSmall : St :=
  iommu_pagecache_add (iommu_pagecache_init 12 100) 0x1000 1 0xD000
    Dir.DMA_TO_DEVICE

/-- A fresh cache holding a 4-page mapping 0x1000 → 0xD000. -/
def exFour : St :=
  iommu_pagecache_add (iommu_pagecache_init 12 100) 0x1000 4 0xD000
    Dir.DMA_TO_DEVICE

/-- A cache over budget: 4 pages cached with max_cachesize = 3. -/
def exBig : St :=
  iommu_pagecache_add (iommu_pagecache_init 12 4) 0x1000 4 0xD000
    Dir.DMA_TO_DEVICE

/-- A cache exactly at budget: 3 pages cached with max_cachesize = 3. -/
def exThree : St :=
  iommu_pagecache_add (iommu_pagecache_init 12 4) 0x1000 3 0xD000
    Dir.DMA_TO_DEVICE

/-- Two adds that double-map the DMA page 0xD. -/
def exDouble : St :=
  iommu_pagecache_add
    (iommu_pagecache_add (iommu_pagecache_init 12 100) 0x1000 1 0xD000
      Dir.DMA_TO_DEVICE)
    0x2000 1 0xD000 Dir.DMA_TO_DEVICE

/-- A hand-built state whose FIFO del-half holds entry 1 (in use, count 1)
followed by entry 2 (idle, count 0); the two entries are distinct DMA
mappings (0xD and 0xE) of the same host page 0x1, whose chain holds both. -/
def exEvict : St where
  heap := fun i =>
    if i = 1 then some ⟨0xD, 0x1, 1, Dir.DMA_TO_DEVICE⟩
    else if i = 2 then some ⟨0xE, 0x1, 0, Dir.DMA_TO_DEVICE⟩
    else none
  dmapages := fun k => if k = 0xD then some 1 else if k = 0xE then some 2 else none
  cpupages := fun k => if k = 0x1 then [1, 2] else []
  fifoAdd := []
  fifoDel := [1, 2]
  cachesize := 2
  maxCachesize := 1
  pageShift := 12
  nextId := 3

/-- A hand-built state whose FIFO del-half holds entry 1 with a negative
count (over-freed) followed by entry 2 (idle, count 0); both entries map
the shared host page 0x1, whose chain holds both. -/
def exNeg : St where
  heap := fun i =>
    if i = 1 then some ⟨0xD, 0x1, -1, Dir.DMA_TO_DEVICE⟩
    else if i = 2 then some ⟨0xE, 0x1, 0, Dir.DMA_TO_DEVICE⟩
    else none
  dmapages := fun k => if k = 0xD then some 1 else if k = 0xE then some 2 else none
  cpupages := fun k => if k = 0x1 then [1, 2] else []
  fifoAdd := []
  fifoDel := [1, 2]
  cachesize := 2
  maxCachesize := 1
  pageShift := 12
  nextId := 3

/-! ## Basic lemmas about the state primitives -/

@[simp] theorem bumpCount_dmapages (s : St) (id : Nat) (d : Int) :
    (bumpCount s id d).dmapages = s.dmapages := rfl

@[simp] theorem bumpCount_cpupages (s : St) (id : Nat) (d : Int) :
    (bumpCount s id d).cpupages = s.cpupages := rfl

@[simp] theorem bumpCount_fifoAdd (s : St) (id : Nat) (d : Int) :
    (bumpCount s id d).fifoAdd = s.fifoAdd := rfl

@[simp] theorem bumpCount_fifoDel (s : St) (id : Nat) (d : Int) :
    (bumpCount s id d).fifoDel = s.fifoDel := rfl

@[simp] theorem bumpCount_pageShift (s : St) (id : Nat) (d : Int) :
    (bumpCount s id d).pageShift = s.pageShift := rfl

@[simp] theorem bumpCount_cachesize (s : St) (id : Nat) (d : Int) :
    (bumpCount s id d).cachesize = s.cachesize := rfl

@[simp] theorem bumpCount_maxCachesize (s : St) (id : Nat) (d : Int) :
    (bumpCount s id d).maxCachesize = s.maxCachesize := rfl

@[simp] theorem bumpCount_nextId (s : St) (id : Nat) (d : Int) :
    (bumpCount s id d).nextId = s.nextId := rfl

theorem bumpCount_heap_ne (s : St) {x id : Nat} (d : Int) (h : x ≠ id) :
    (bumpCount s id d).heap x = s.heap x := by
  simp [bumpCount, h]

theorem bumpCount_heap_self (s : St) (id : Nat) (d : Int) :
    (bumpCount s id d).heap id =
      match s.heap id with
      | some en => some { en with count := en.count + d }
      | none => none := by
  simp [bumpCount]

theorem decCount_heap_ne (s : St) {x id : Nat} (h : x ≠ id) :
    (decCount s id).heap x = s.heap x := bumpCount_heap_ne s (-1) h

/-- Decrementing right after incrementing the same entry restores the state
exactly. -/
theorem decCount_bumpCount (s : St) (id : Nat) :
    decCount (bumpCount s id 1) id = s := by
  cases s with
  | mk heap dmapages cpupages fifoAdd fifoDel cachesize maxC ps nid =>
    simp only [decCount, bumpCount, St.mk.injEq, and_true]
    funext x
    by_cases hx : x = id
    · subst hx
      simp only [if_pos rfl]
      cases h : heap x with
      | none => simp
      | some en => simp
    · simp [hx]

theorem useOne_fst_heap (s : St) (id : Nat) :
    ((iommu_pagecache_use_one s id).2).dmapages = s.dmapages ∧
    ((iommu_pagecache_use_one s id).2).cpupages = s.cpupages := by
  unfold iommu_pagecache_use_one
  cases h : s.heap id with
  | none => exact ⟨rfl, rfl⟩
  | some en =>
    by_cases hc : en.count = -IOMMU_CACHE_REMOVING <;> simp [hc]

/-- A failed use_one leaves the state untouched. -/
theorem useOne_false (s : St) (id : Nat)
    (h : (iommu_pagecache_use_one s id).1 = false) :
    (iommu_pagecache_use_one s id).2 = s := by
  unfold iommu_pagecache_use_one at *
  cases hh : s.heap id with
  | none => rfl
  | some en =>
    by_cases hc : en.count = -IOMMU_CACHE_REMOVING
    · simp [hh, hc]
    · simp [hh, hc] at h

/-- A successful use_one increments the count of its entry by one. -/
theorem useOne_true (s : St) (id : Nat)
    (h : (iommu_pagecache_use_one s id).1 = true) :
    (iommu_pagecache_use_one s id).2 = bumpCount s id 1 := by
  unfold iommu_pagecache_use_one at *
  cases hh : s.heap id with
  | none => simp [hh] at h
  | some en =>
    by_cases hc : en.count = -IOMMU_CACHE_REMOVING
    · simp [hh, hc] at h
    · simp [hh, hc]

/-! ## The rollback of a failed range acquisition -/

/-- Peeling the last iteration off the out_reverse loop. -/
theorem outReverse_peel (dm : Nat) :
    ∀ (n a : Nat) (s : St),
      outReverse dm a (n + 1) s =
        (match (outReverse dm a n s).dmapages (dm + (a + n)) with
         | some id => decCount (outReverse dm a n s) id
         | none => outReverse dm a n s) := by
  intro n
  induction n with
  | zero =>
    intro a s
    simp only [outReverse, Nat.add_zero]
  | succ n ih =>
    intro a s
    show outReverse dm (a + 1) (n + 1) _ = _
    rw [ih (a + 1)]
    have harith : a + 1 + n = a + (n + 1) := by omega
    rw [harith]
    rfl

/-- A failed descending walk is inverted exactly by the out_reverse loop:
the loop from `j + 1` to `i` restores the state the walk started from.
Also records that the fail offset is in `[1, i]` and that the walk touched
no xarray. -/
theorem useRangeGo_fail (dm cp : Nat) (dir : Dir) :
    ∀ (i : Nat) (s s' : St) (j : Nat),
      useRangeGo dm cp dir i s = (s', some j) →
      1 ≤ j ∧ j ≤ i ∧ s'.dmapages = s.dmapages ∧
        outReverse dm (j + 1) (i - j) s' = s := by
  intro i
  induction i with
  | zero => intro s s' j h; simp [useRangeGo] at h
  | succ i ih =>
    intro s s' j h
    rw [useRangeGo] at h
    cases hdm : s.dmapages (dm + (i + 1)) with
    | none =>
      simp only [hdm] at h
      obtain ⟨rfl, rfl⟩ : s = s' ∧ i + 1 = j := by
        exact ⟨congrArg Prod.fst h, by simpa using congrArg Prod.snd h⟩
      exact ⟨by omega, by omega, rfl, by simp [outReverse]⟩
    | some id =>
      simp only [hdm] at h
      cases hh : s.heap id with
      | none =>
        simp only [hh] at h
        obtain ⟨rfl, rfl⟩ : s = s' ∧ i + 1 = j :=
          ⟨congrArg Prod.fst h, by simpa using congrArg Prod.snd h⟩
        exact ⟨by omega, by omega, rfl, by simp [outReverse]⟩
      | some en =>
        simp only [hh] at h
        by_cases hcp : en.cpupage ≠ cp + (i + 1)
        · rw [if_pos hcp] at h
          obtain ⟨rfl, rfl⟩ : s = s' ∧ i + 1 = j :=
            ⟨congrArg Prod.fst h, by simpa using congrArg Prod.snd h⟩
          exact ⟨by omega, by omega, rfl, by simp [outReverse]⟩
        · rw [if_neg hcp] at h
          by_cases hdir : ¬ DMA_DIR_COMPAT en.direction dir
          · rw [if_pos hdir] at h
            obtain ⟨rfl, rfl⟩ : s = s' ∧ i + 1 = j :=
              ⟨congrArg Prod.fst h, by simpa using congrArg Prod.snd h⟩
            exact ⟨by omega, by omega, rfl, by simp [outReverse]⟩
          · rw [if_neg hdir] at h
            by_cases hcnt : en.count = -IOMMU_CACHE_REMOVING
            · rw [if_pos hcnt] at h
              obtain ⟨rfl, rfl⟩ : s = s' ∧ i + 1 = j :=
                ⟨congrArg Prod.fst h, by simpa using congrArg Prod.snd h⟩
              exact ⟨by omega, by omega, rfl, by simp [outReverse]⟩
            · rw [if_neg hcnt] at h
              obtain ⟨h1, h2, h3, h4⟩ := ih (bumpCount s id 1) s' j h
              refine ⟨h1, by omega, by simpa using h3, ?_⟩
              have harith : i + 1 - j = (i - j) + 1 := by omega
              rw [harith, outReverse_peel dm (i - j) (j + 1) s', h4]
              have hkey : j + 1 + (i - j) = i + 1 := by omega
              rw [hkey]
              simp only [bumpCount_dmapages, hdm]
              exact decCount_bumpCount s id

/-- If a whole range acquisition fails, it leaves the cache state exactly
as it was: every count acquired on the way, the offset-0 entry's included,
is decremented back before failure is reported. -/
theorem useRange_false (s s' : St) (d npages : Nat) (dir : Dir)
    (h : iommu_pagecache_use_range s d npages dir = (false, s')) :
    s' = s := by
  unfold iommu_pagecache_use_range at h
  cases hh : s.heap d with
  | none =>
    simp only [hh] at h
    exact (congrArg Prod.snd h).symm
  | some en =>
    simp only [hh] at h
    cases h1 : iommu_pagecache_use_one s d with
    | mk ok s1 =>
      cases ok with
      | false =>
        simp only [h1] at h
        have := useOne_false s d (by rw [h1])
        rw [h1] at this
        simp only at this
        subst this
        exact (congrArg Prod.snd h).symm
      | true =>
        have hs1 : s1 = bumpCount s d 1 := by
          have := useOne_true s d (by rw [h1])
          rw [h1] at this; exact this
        simp only [h1] at h
        cases hgo : useRangeGo en.dmapage en.cpupage dir (npages - 1) s1 with
        | mk s2 res =>
          cases res with
          | none => simp [hgo] at h
          | some j =>
            simp only [hgo] at h
            obtain ⟨hj1, hj2, _, hundo⟩ :=
              useRangeGo_fail en.dmapage en.cpupage dir (npages - 1) s1 s2 j hgo
            have hnp : npages - 1 - j = npages - (j + 1) := by omega
            rw [hnp] at hundo
            have hs' : s' =
                decCount (outReverse en.dmapage (j + 1) (npages - (j + 1)) s2) d :=
              (congrArg Prod.snd h).symm
            rw [hs', hundo, hs1]
            exact decCount_bumpCount s d

/-- A chain walk that finds nothing leaves the state untouched. -/
theorem useChain_none (p npages : Nat) (dir : Dir) :
    ∀ (l : List Nat) (s s' : St),
      useChain p npages dir l s = (none, s') → s' = s := by
  intro l
  induction l with
  | nil => intro s s' h; exact (congrArg Prod.snd h).symm
  | cons id rest ih =>
    intro s s' h
    rw [useChain] at h
    cases hh : s.heap id with
    | none =>
      simp only [hh] at h
      exact ih s s' h
    | some en =>
      simp only [hh] at h
      by_cases hskip : p ≠ en.cpupage ∨ ¬ DMA_DIR_COMPAT en.direction dir
      · rw [if_pos hskip] at h
        exact ih s s' h
      · rw [if_neg hskip] at h
        cases hr : iommu_pagecache_use_range s id npages dir with
        | mk ok s1 =>
          cases ok with
          | true => simp [hr] at h
          | false =>
            simp only [hr] at h
            have : s1 = s := useRange_false s s1 id npages dir hr
            rw [this] at h
            exact ih s s' h

/-! ## The coalescing unmap buffer covers each appended page exactly once -/

theorem coverage_append (b1 b2 : List (Nat × Nat)) (x : Nat) :
    coverage (b1 ++ b2) x = coverage b1 x + coverage b2 x := by
  induction b1 with
  | nil => simp [coverage]
  | cons r rs ih => simp [coverage, ih]; omega

theorem coverage_extendRun (q x : Nat) :
    ∀ (b b' : List (Nat × Nat)), extendRun b q = some b' →
      coverage b' x = coverage b x + (if x = q then 1 else 0) := by
  intro b
  induction b with
  | nil => intro b' h; simp [extendRun] at h
  | cons r rs ih =>
    intro b' h
    rw [extendRun] at h
    cases he : extendRun rs q with
    | some rs' =>
      rw [he] at h
      obtain rfl : r :: rs' = b' := by simpa using h
      simp only [coverage, ih rs' he]
      omega
    | none =>
      rw [he] at h
      by_cases hq : q = r.1 + r.2
      · rw [if_pos hq] at h
        obtain rfl : (r.1, r.2 + 1) :: rs = b' := by simpa using h
        simp only [coverage]
        have : (if r.1 ≤ x ∧ x < r.1 + (r.2 + 1) then 1 else 0) =
            (if r.1 ≤ x ∧ x < r.1 + r.2 then 1 else 0) +
              (if x = q then 1 else 0) := by
          subst hq
          split_ifs <;> omega
        omega
      · rw [if_neg hq] at h
        simp at h

/-- Appending a page to the unmap buffer raises the coverage of exactly
that page by one. -/
theorem coverage_unmapAdd (b : List (Nat × Nat)) (q x : Nat) :
    coverage (iommu_pagecache_unmap_add b q) x =
      coverage b x + (if x = q then 1 else 0) := by
  unfold iommu_pagecache_unmap_add
  cases he : extendRun b q with
  | some b' => exact coverage_extendRun q x b b' he
  | none =>
    rw [coverage_append]
    simp only [coverage]
    split_ifs <;> omega

theorem sum_extendRun (q : Nat) :
    ∀ (b b' : List (Nat × Nat)), extendRun b q = some b' →
      (b'.map Prod.snd).sum = (b.map Prod.snd).sum + 1 := by
  intro b
  induction b with
  | nil => intro b' h; simp [extendRun] at h
  | cons r rs ih =>
    intro b' h
    rw [extendRun] at h
    cases he : extendRun rs q with
    | some rs' =>
      rw [he] at h
      obtain rfl : r :: rs' = b' := by simpa using h
      simp [ih rs' he]
      omega
    | none =>
      rw [he] at h
      by_cases hq : q = r.1 + r.2
      · rw [if_pos hq] at h
        obtain rfl : (r.1, r.2 + 1) :: rs = b' := by simpa using h
        simp
        omega
      · rw [if_neg hq] at h
        simp at h

theorem sum_unmapAdd (b : List (Nat × Nat)) (q : Nat) :
    ((iommu_pagecache_unmap_add b q).map Prod.snd).sum =
      (b.map Prod.snd).sum + 1 := by
  unfold iommu_pagecache_unmap_add
  cases he : extendRun b q with
  | some b' => exact sum_extendRun q b b' he
  | none => simp

/-! ## The per-page loop of free -/

theorem freeLoop_frame :
    ∀ (n p : Nat) (s : St) (b : List (Nat × Nat)),
      (freeLoop p n s b).1.dmapages = s.dmapages ∧
      (freeLoop p n s b).1.cpupages = s.cpupages ∧
      (freeLoop p n s b).1.fifoAdd = s.fifoAdd ∧
      (freeLoop p n s b).1.fifoDel = s.fifoDel ∧
      (freeLoop p n s b).1.cachesize = s.cachesize ∧
      (freeLoop p n s b).1.maxCachesize = s.maxCachesize ∧
      (freeLoop p n s b).1.pageShift = s.pageShift := by
  intro n
  induction n with
  | zero => intro p s b; exact ⟨rfl, rfl, rfl, rfl, rfl, rfl, rfl⟩
  | succ n ih =>
    intro p s b
    rw [freeLoop]
    cases hd : s.dmapages p with
    | some id => simpa using ih (p + 1) (decCount s id) b
    | none => exact ih (p + 1) s _

/-- The buffer built by free's loop covers exactly the uncached pages of
the processed range, each once (provided they were not already covered). -/
theorem freeLoop_coverage :
    ∀ (n p : Nat) (s : St) (b : List (Nat × Nat)) (x : Nat),
      coverage (freeLoop p n s b).2 x =
        coverage b x +
          (if p ≤ x ∧ x < p + n ∧ s.dmapages x = none then 1 else 0) := by
  intro n
  induction n with
  | zero =>
    intro p s b x
    have : ¬ (p ≤ x ∧ x < p + 0 ∧ s.dmapages x = none) := by
      rintro ⟨h1, h2, _⟩; omega
    simp only [freeLoop]
    rw [if_neg this, Nat.add_zero]
  | succ n ih =>
    intro p s b x
    rw [freeLoop]
    cases hd : s.dmapages p with
    | some id =>
      rw [ih (p + 1) (decCount s id) b x]
      simp only [decCount, bumpCount_dmapages]
      by_cases hx : x = p
      · subst hx
        simp [hd]
      · have h1 : (p + 1 ≤ x ∧ x < p + 1 + n ∧ s.dmapages x = none) ↔
            (p ≤ x ∧ x < p + (n + 1) ∧ s.dmapages x = none) := by
          constructor
          · rintro ⟨a, c, d⟩; exact ⟨by omega, by omega, d⟩
          · rintro ⟨a, c, d⟩
            exact ⟨by omega, by omega, d⟩
        rw [if_congr h1 rfl rfl]
    | none =>
      rw [ih (p + 1) s _ x, coverage_unmapAdd]
      by_cases hx : x = p
      · subst hx
        have hno : ¬ (x + 1 ≤ x ∧ x < x + 1 + n ∧ s.dmapages x = none) := by
          rintro ⟨a, _, _⟩; omega
        simp [hno, hd]
      · have h1 : (p + 1 ≤ x ∧ x < p + 1 + n ∧ s.dmapages x = none) ↔
            (p ≤ x ∧ x < p + (n + 1) ∧ s.dmapages x = none) := by
          constructor
          · rintro ⟨a, c, d⟩; exact ⟨by omega, by omega, d⟩
          · rintro ⟨a, c, d⟩
            refine ⟨?_, by omega, d⟩
            rcases Nat.lt_or_ge p x with hlt | hge
            · omega
            · exfalso
              have : x = p := by omega
              exact hx this
        rw [if_congr h1 rfl rfl]
        simp [hx]

/-- The total size of the buffer built by free's loop grows by the number
of uncached pages of the range. -/
theorem freeLoop_sum :
    ∀ (n p : Nat) (s : St) (b : List (Nat × Nat)),
      ((freeLoop p n s b).2.map Prod.snd).sum =
        (b.map Prod.snd).sum + countNone s.dmapages p n := by
  intro n
  induction n with
  | zero => intro p s b; simp [freeLoop, countNone]
  | succ n ih =>
    intro p s b
    rw [freeLoop]
    cases hd : s.dmapages p with
    | some id =>
      rw [ih (p + 1) (decCount s id) b]
      simp only [decCount, bumpCount_dmapages, countNone, hd]
      simp
    | none =>
      rw [ih (p + 1) s _, sum_unmapAdd]
      simp only [countNone, hd]
      simp
      omega

/-- An empty buffer out of free's loop means every page of the range was
cached. -/
theorem freeLoop_nil_countNone (n p : Nat) (s : St)
    (h : (freeLoop p n s []).2 = []) : countNone s.dmapages p n = 0 := by
  have := freeLoop_sum n p s []
  rw [h] at this
  simpa using this.symm

theorem countNone_zero :
    ∀ (n p : Nat) (f : Nat → Option Nat), countNone f p n = 0 →
      ∀ q, p ≤ q → q < p + n → f q ≠ none := by
  intro n
  induction n with
  | zero => intro p f _ q h1 h2; omega
  | succ n ih =>
    intro p f h q h1 h2
    rw [countNone] at h
    cases hf : f p with
    | none => simp [hf] at h
    | some id =>
      rw [hf] at h
      simp at h
      by_cases hq : q = p
      · subst hq; simp [hf]
      · exact ih (p + 1) f h q (by omega) (by omega)

theorem eventsCoverage_unmap (s : St) (b : List (Nat × Nat)) (x : Nat) :
    eventsCoverage s.pageShift x (iommu_pagecache_unmap s b).2 =
      coverage b x := by
  have hcancel : ∀ a : Nat, (a <<< s.pageShift) >>> s.pageShift = a := by
    intro a
    rw [Nat.shiftLeft_eq, Nat.shiftRight_eq_div_pow]
    exact Nat.mul_div_cancel a (Nat.pos_pow_of_pos s.pageShift (by omega))
  show eventsCoverage s.pageShift x
      (b.map fun r => Event.unmapCall (r.1 <<< s.pageShift) r.2) = coverage b x
  induction b with
  | nil => rfl
  | cons r rs ih =>
    simp only [List.map_cons, eventsCoverage, coverage, ih, hcancel]

theorem cleanCall_notin_unmap (s : St) (b : List (Nat × Nat)) (K : Int) :
    Event.cleanCall K ∉ (iommu_pagecache_unmap s b).2 := by
  intro h
  simp only [iommu_pagecache_unmap, List.mem_map] at h
  obtain ⟨r, _, hr⟩ := h
  exact Event.noConfusion hr

theorem cleanCall_notin_clean (s : St) (K' K : Int) :
    Event.cleanCall K ∉ (iommu_pagecache_clean s K').2 := by
  unfold iommu_pagecache_clean
  cases hfd : s.fifoDel with
  | nil => simp
  | cons d rest => exact cleanCall_notin_unmap _ _ K

/-- Characterisation of iommu_pagecache_free: the per-page loop plus the
immediate flush leave the cache at `cachesize - countNone`, the immediate
flush unmaps exactly the uncached pages of the range (each once), and the
evictor is invoked, with request `exceeding + IOMMU_CACHE_THRES`, exactly
when the resulting cachesize strictly exceeds max_cachesize. -/
theorem free_split (s : St) (dmaHandle npages : Nat) :
    ∃ s2 ev1,
      (∀ q, eventsCoverage s.pageShift q ev1 =
        if dmaHandle >>> s.pageShift ≤ q ∧ q < dmaHandle >>> s.pageShift + npages ∧
            s.dmapages q = none then 1 else 0) ∧
      (∀ K, Event.cleanCall K ∉ ev1) ∧
      s2.cachesize = s.cachesize -
        (countNone s.dmapages (dmaHandle >>> s.pageShift) npages : Int) ∧
      s2.maxCachesize = s.maxCachesize ∧
      iommu_pagecache_free s dmaHandle npages =
        (if _h : s2.cachesize - (s2.maxCachesize : Int) > 0 then
           ((iommu_pagecache_clean s2 (s2.cachesize - (s2.maxCachesize : Int) +
               IOMMU_CACHE_THRES)).1,
            ev1 ++ Event.cleanCall (s2.cachesize - (s2.maxCachesize : Int) +
               IOMMU_CACHE_THRES) ::
              (iommu_pagecache_clean s2 (s2.cachesize - (s2.maxCachesize : Int) +
               IOMMU_CACHE_THRES)).2)
         else (s2, ev1)) := by
  cases hfl : freeLoop (dmaHandle >>> s.pageShift) npages s [] with
  | mk s1 b =>
    obtain ⟨hdm, _, _, _, hcs, hmax, hps⟩ := by
      have := freeLoop_frame npages (dmaHandle >>> s.pageShift) s []
      rw [hfl] at this
      exact this
    have hsum := by
      have := freeLoop_sum npages (dmaHandle >>> s.pageShift) s []
      rw [hfl] at this
      exact this
    have hcov := by
      have := fun x => freeLoop_coverage npages (dmaHandle >>> s.pageShift) s [] x
      simp only [hfl] at this
      exact this
    cases b with
    | nil =>
      refine ⟨s1, [], ?_, ?_, ?_, ?_, ?_⟩
      · intro q
        have hcn : countNone s.dmapages (dmaHandle >>> s.pageShift) npages = 0 := by
          simpa using hsum.symm
        have hnone := countNone_zero npages (dmaHandle >>> s.pageShift)
          s.dmapages hcn
        have : ¬ (dmaHandle >>> s.pageShift ≤ q ∧
            q < dmaHandle >>> s.pageShift + npages ∧ s.dmapages q = none) := by
          rintro ⟨h1, h2, h3⟩
          exact hnone q h1 h2 h3
        rw [if_neg this]
        rfl
      · intro K h
        simp at h
      · have hcn : countNone s.dmapages (dmaHandle >>> s.pageShift) npages = 0 := by
          simpa using hsum.symm
        rw [hcs, hcn]
        simp
      · exact hmax
      · unfold iommu_pagecache_free
        rw [hfl]
        by_cases hex : s1.cachesize - (s1.maxCachesize : Int) > 0
        · rw [dif_pos hex]
          simp only [gt_iff_lt]
          rw [if_pos hex]
        · rw [dif_neg hex]
          simp only [gt_iff_lt]
          rw [if_neg hex]
    | cons r rs =>
      refine ⟨(iommu_pagecache_unmap s1 (r :: rs)).1,
              (iommu_pagecache_unmap s1 (r :: rs)).2, ?_, ?_, ?_, ?_, ?_⟩
      · intro q
        have h1 : eventsCoverage s1.pageShift q
            (iommu_pagecache_unmap s1 (r :: rs)).2 = coverage (r :: rs) q :=
          eventsCoverage_unmap s1 (r :: rs) q
        rw [hps] at h1
        rw [h1, hcov q]
        simp [coverage]
      · exact fun K => cleanCall_notin_unmap s1 (r :: rs) K
      · show s1.cachesize - (((r :: rs).map Prod.snd).sum : Int) = _
        rw [hcs]
        have : (((r :: rs).map Prod.snd).sum : Int) =
            (countNone s.dmapages (dmaHandle >>> s.pageShift) npages : Int) := by
          rw [hsum]
          simp
        rw [this]
      · exact hmax
      · unfold iommu_pagecache_free
        rw [hfl]
        by_cases hex : (iommu_pagecache_unmap s1 (r :: rs)).1.cachesize -
            ((iommu_pagecache_unmap s1 (r :: rs)).1.maxCachesize : Int) > 0
        · rw [dif_pos hex]
          simp only [gt_iff_lt]
          rw [if_pos hex]
        · rw [dif_neg hex]
          simp only [gt_iff_lt]
          rw [if_neg hex]

/-! ## The eviction pass seen from one entry -/

theorem shift_cancel (a sh : Nat) : (a <<< sh) >>> sh = a := by
  rw [Nat.shiftLeft_eq, Nat.shiftRight_eq_div_pow]
  exact Nat.mul_div_cancel a (Nat.pos_pow_of_pos sh (by omega))

/-- Whatever branch index removal takes, it erases the entry's dmapages
slot and republishes some chain at the entry's cpu page, leaving every
other component of the state alone. -/
theorem updC_updC (f : Nat → List Nat) (k : Nat) (v w : List Nat) :
    updC (updC f k v) k w = updC f k w := by
  funext x
  by_cases hx : x = k <;> simp [updC, hx]

theorem entryRemove_eq (s : St) (d : Nat) (en' : Entry) :
    ∃ ch, iommu_pagecache_entry_remove s d en' =
      { s with dmapages := updO s.dmapages en'.dmapage none,
               cpupages := updC s.cpupages en'.cpupage ch } :=
  ⟨_, rfl⟩

/-- Splicing a present entry `d` out of its chain removes nothing else:
every other member of the chain is still in the republished chain.  (The
chain-lost path of entry_remove fires only when `d` is absent.) -/
theorem entryRemove_chain_mem (s : St) (d : Nat) (en' : Entry) (x : Nat)
    (hxd : x ≠ d) (hx : x ∈ s.cpupages en'.cpupage)
    (hd : d ∈ s.cpupages en'.cpupage) :
    x ∈ (iommu_pagecache_entry_remove s d en').cpupages en'.cpupage := by
  have hch : (iommu_pagecache_entry_remove s d en').cpupages en'.cpupage =
      match s.cpupages en'.cpupage with
      | [] => []
      | c :: rest =>
          if c = d then (if rest = [] then [] else rest)
          else if d ∈ rest then c :: rest.erase d else [] := by
    show updC s.cpupages en'.cpupage _ en'.cpupage = _
    simp [updC]
  rw [hch]
  cases hc : s.cpupages en'.cpupage with
  | nil =>
    rw [hc] at hx
    exact absurd hx (List.not_mem_nil x)
  | cons c rest =>
    rw [hc] at hx hd
    simp only
    by_cases h1 : c = d
    · rw [if_pos h1]
      have hxr : x ∈ rest := by
        rcases List.mem_cons.mp hx with h | h
        · exact absurd (h.trans h1) hxd
        · exact h
      rw [if_neg (List.ne_nil_of_mem hxr)]
      exact hxr
    · rw [if_neg h1]
      have hdr : d ∈ rest := by
        rcases List.mem_cons.mp hd with h | h
        · exact absurd h.symm h1
        · exact h
      rw [if_pos hdr]
      rcases List.mem_cons.mp hx with h | h
      · rw [h]
        exact List.mem_cons_self c (rest.erase d)
      · exact List.mem_cons_of_mem c ((List.mem_erase_of_ne hxd).mpr h)

/-- The walk of the detached del-half only ever: restores counts, frees
claimed entries, prepends entries to the add-half, and returns a suffix of
its input as the unwalked tail.  It never touches the del-half head, the
page shift, the budget or the size counter. -/
theorem cleanWalk_frame (K : Int) :
    ∀ (l : List Nat) (s : St) (b : List (Nat × Nat)) (removed : Nat),
      (∀ x, (cleanWalk K l s b removed).1.heap x = s.heap x ∨
        (cleanWalk K l s b removed).1.heap x = none) ∧
      (∀ x, x ∈ (cleanWalk K l s b removed).1.fifoAdd →
        x ∈ s.fifoAdd ∨ x ∈ l) ∧
      (∀ x, x ∈ (cleanWalk K l s b removed).2.2 → x ∈ l) ∧
      (cleanWalk K l s b removed).1.fifoDel = s.fifoDel ∧
      (cleanWalk K l s b removed).1.pageShift = s.pageShift ∧
      (cleanWalk K l s b removed).1.maxCachesize = s.maxCachesize := by
  intro l
  induction l with
  | nil =>
    intro s b removed
    exact ⟨fun x => Or.inl rfl, fun x hx => Or.inl hx, fun x hx => absurd hx
      (List.not_mem_nil x), rfl, rfl, rfl⟩
  | cons d rest ih =>
    intro s b removed
    cases hh : s.heap d with
    | none =>
      rw [cleanWalk]
      simp only [hh]
      obtain ⟨f1, f2, f3, f4, f5, f6⟩ := ih s b removed
      exact ⟨f1, fun x hx => (f2 x hx).imp (fun h => h) (fun h => by simp [h]),
        fun x hx => by simp [f3 x hx], f4, f5, f6⟩
    | some en =>
      rw [cleanWalk]
      simp only [hh]
      by_cases hcnt : en.count - IOMMU_CACHE_REMOVING ≠ -IOMMU_CACHE_REMOVING
      · rw [if_pos hcnt]
        obtain ⟨f1, f2, f3, f4, f5, f6⟩ :=
          ih { s with fifoAdd := d :: s.fifoAdd } b removed
        refine ⟨f1, fun x hx => ?_, fun x hx => by simp [f3 x hx], f4, f5, f6⟩
        rcases f2 x hx with hx2 | hx2
        · rcases List.mem_cons.mp hx2 with hx3 | hx3
          · exact Or.inr (by simp [hx3])
          · exact Or.inl hx3
        · exact Or.inr (by simp [hx2])
      · rw [if_neg hcnt]
        obtain ⟨ch, hrm⟩ := entryRemove_eq s d en
        by_cases hbrk : ((removed : Int) + 1) ≥ K
        · rw [if_pos hbrk]
          refine ⟨fun x => ?_, fun x hx => Or.inl ?_, fun x hx => by simp [hx],
            ?_, ?_, ?_⟩
          · by_cases hx : x = d
            · exact Or.inr (by simp [hx])
            · rw [hrm]
              exact Or.inl (by simp [hx])
          · rw [hrm] at hx
            simpa using hx
          · rw [hrm]
          · rw [hrm]
          · rw [hrm]
        · rw [if_neg hbrk]
          obtain ⟨f1, f2, f3, f4, f5, f6⟩ :=
            ih { iommu_pagecache_entry_remove s d en with
                 heap := fun x => if x = d then none
                   else (iommu_pagecache_entry_remove s d en).heap x }
              (iommu_pagecache_unmap_add b en.dmapage) (removed + 1)
          refine ⟨fun x => ?_, fun x hx => ?_, fun x hx => by simp [f3 x hx],
            ?_, ?_, ?_⟩
          · rcases f1 x with hx1 | hx1
            · by_cases hx : x = d
              · rw [hx1]
                simp [hx]
              · rw [hx1, hrm]
                exact Or.inl (by simp [hx])
            · exact Or.inr hx1
          · rcases f2 x hx with hx2 | hx2
            · rw [hrm] at hx2
              exact Or.inl (by simpa using hx2)
            · exact Or.inr (by simp [hx2])
          · rw [f4, hrm]
          · rw [f5, hrm]
          · rw [f6, hrm]

/-- One entry's view of the walk: an entry `e` whose count the claim
cannot take (count ≠ 0), whose dma page no walked entry shares, and whose
host page's chain holds every walked entry mapping that host page (the
host page itself may be shared), keeps its heap record and its dmapages
slot; its host page's chain loses only the entries the walk frees; its
dma page is never put into the unmap buffer; and if `e` is walked it is
prepended to the add-half. -/
theorem cleanWalk_preserve (K : Int) (e : Nat) (en : Entry)
    (hcnt : en.count ≠ 0) :
    ∀ (l : List Nat) (s : St) (b : List (Nat × Nat)) (removed : Nat),
      s.heap e = some en →
      e ∈ s.cpupages en.cpupage →
      (∀ d' ∈ l, d' ≠ e →
        (s.heap d').map Entry.dmapage ≠ some en.dmapage ∧
        ((s.heap d').map Entry.cpupage = some en.cpupage →
          d' ∈ s.cpupages en.cpupage)) →
      (cleanWalk K l s b removed).1.heap e = some en ∧
      (cleanWalk K l s b removed).1.dmapages en.dmapage =
        s.dmapages en.dmapage ∧
      (∀ x ∈ s.cpupages en.cpupage,
        x ∈ (cleanWalk K l s b removed).1.cpupages en.cpupage ∨
        (cleanWalk K l s b removed).1.heap x = none) ∧
      coverage (cleanWalk K l s b removed).2.1 en.dmapage =
        coverage b en.dmapage ∧
      (∀ x ∈ s.fifoAdd, x ∈ (cleanWalk K l s b removed).1.fifoAdd) ∧
      (e ∈ l → e ∉ (cleanWalk K l s b removed).2.2 →
        e ∈ (cleanWalk K l s b removed).1.fifoAdd) := by
  intro l
  induction l with
  | nil =>
    intro s b removed hheap hcp hdisj
    exact ⟨hheap, rfl, fun x hx => Or.inl hx, rfl, fun x hx => hx,
      fun hel => absurd hel (List.not_mem_nil e)⟩
  | cons d rest ih =>
    intro s b removed hheap hcp hdisj
    by_cases hde : d = e
    · subst hde
      rw [cleanWalk]
      simp only [hheap]
      rw [if_pos (by intro hc; apply hcnt; omega)]
      obtain ⟨p1, p2, p3, p4, p5, p6⟩ :=
        ih { s with fifoAdd := d :: s.fifoAdd } b removed hheap hcp
          (fun d' hd' hne => hdisj d' (by simp [hd']) hne)
      refine ⟨p1, p2, p3, p4, fun x hx => p5 x (by simp [hx]), fun _ _ => ?_⟩
      exact p5 d (by simp)
    · cases hh : s.heap d with
      | none =>
        rw [cleanWalk]
        simp only [hh]
        obtain ⟨p1, p2, p3, p4, p5, p6⟩ := ih s b removed hheap hcp
          (fun d' hd' hne => hdisj d' (by simp [hd']) hne)
        exact ⟨p1, p2, p3, p4, p5, fun hel hrem =>
          p6 (by rcases List.mem_cons.mp hel with h | h;
                 · exact absurd h.symm hde
                 · exact h) hrem⟩
      | some en' =>
        rw [cleanWalk]
        simp only [hh]
        have hdmne : en'.dmapage ≠ en.dmapage := by
          have := (hdisj d (by simp) (fun h => hde h)).1
          rw [hh] at this
          simpa using this
        have hcpch : en'.cpupage = en.cpupage → d ∈ s.cpupages en.cpupage := by
          intro hcpeq
          have := (hdisj d (by simp) (fun h => hde h)).2
          rw [hh] at this
          exact this (by simp [hcpeq])
        by_cases hcnt' : en'.count - IOMMU_CACHE_REMOVING ≠ -IOMMU_CACHE_REMOVING
        · rw [if_pos hcnt']
          obtain ⟨p1, p2, p3, p4, p5, p6⟩ :=
            ih { s with fifoAdd := d :: s.fifoAdd } b removed hheap hcp
              (fun d' hd' hne => hdisj d' (by simp [hd']) hne)
          refine ⟨p1, p2, p3, p4, fun x hx => p5 x (by simp [hx]),
            fun hel hrem => p6 (by
              rcases List.mem_cons.mp hel with h | h
              · exact absurd h.symm hde
              · exact h) hrem⟩
        · rw [if_neg hcnt']
          obtain ⟨ch, hrm⟩ := entryRemove_eq s d en'
          have hcov : coverage (iommu_pagecache_unmap_add b en'.dmapage)
              en.dmapage = coverage b en.dmapage := by
            rw [coverage_unmapAdd, if_neg (fun h => hdmne h.symm)]
            omega
          have hstep : ∀ x ∈ s.cpupages en.cpupage, x ≠ d →
              x ∈ (iommu_pagecache_entry_remove s d en').cpupages
                en.cpupage := by
            intro x hx hxd
            by_cases hcpeq : en'.cpupage = en.cpupage
            · have hd' := hcpch hcpeq
              rw [← hcpeq] at hx hd' ⊢
              exact entryRemove_chain_mem s d en' x hxd hx hd'
            · have heq : (iommu_pagecache_entry_remove s d en').cpupages
                  en.cpupage = s.cpupages en.cpupage := by
                rw [hrm]
                exact if_neg (fun h => hcpeq h.symm)
              rw [heq]
              exact hx
          by_cases hbrk : ((removed : Int) + 1) ≥ K
          · rw [if_pos hbrk]
            refine ⟨?_, ?_, fun x hx => ?_, hcov, ?_, fun hel hrem => ?_⟩
            · show (if e = d then none else
                (iommu_pagecache_entry_remove s d en').heap e) = some en
              rw [if_neg (fun h => hde h.symm), hrm]
              exact hheap
            · show (iommu_pagecache_entry_remove s d en').dmapages en.dmapage
                = s.dmapages en.dmapage
              rw [hrm]
              exact if_neg (fun h => hdmne h.symm)
            · by_cases hxd : x = d
              · refine Or.inr ?_
                show (if x = d then none else
                  (iommu_pagecache_entry_remove s d en').heap x) = none
                rw [if_pos hxd]
              · refine Or.inl ?_
                show x ∈ (iommu_pagecache_entry_remove s d en').cpupages
                  en.cpupage
                exact hstep x hx hxd
            · rw [hrm]
              exact fun x hx => hx
            · exfalso
              rcases List.mem_cons.mp hel with h | h
              · exact hde h.symm
              · exact hrem h
          · rw [if_neg hbrk]
            have hheap2 : (if e = d then none else
                (iommu_pagecache_entry_remove s d en').heap e) = some en := by
              rw [if_neg (fun h => hde h.symm), hrm]
              exact hheap
            have hcp2 : e ∈ ({ iommu_pagecache_entry_remove s d en' with
                heap := fun y => if y = d then none
                  else (iommu_pagecache_entry_remove s d en').heap y } :
                St).cpupages en.cpupage := by
              show e ∈ (iommu_pagecache_entry_remove s d en').cpupages
                en.cpupage
              exact hstep e hcp (fun h => hde h.symm)
            obtain ⟨p1, p2, p3, p4, p5, p6⟩ :=
              ih { iommu_pagecache_entry_remove s d en' with
                   heap := fun y => if y = d then none
                     else (iommu_pagecache_entry_remove s d en').heap y }
                (iommu_pagecache_unmap_add b en'.dmapage) (removed + 1)
                hheap2 hcp2
                (fun d' hd' hne => by
                  show ((if d' = d then none else
                      (iommu_pagecache_entry_remove s d en').heap d').map
                        Entry.dmapage ≠ some en.dmapage) ∧
                    ((if d' = d then none else
                      (iommu_pagecache_entry_remove s d en').heap d').map
                        Entry.cpupage = some en.cpupage →
                      d' ∈ (iommu_pagecache_entry_remove s d en').cpupages
                        en.cpupage)
                  by_cases hd'd : d' = d
                  · rw [if_pos hd'd]
                    exact ⟨by simp, by simp⟩
                  · rw [if_neg hd'd]
                    have horig := hdisj d' (by simp [hd']) hne
                    exact ⟨horig.1, fun hcp' => hstep d' (horig.2 hcp') hd'd⟩)
            refine ⟨p1, ?_, fun x hx => ?_, by rw [p4, hcov],
              fun x hx => p5 x hx,
              fun hel hrem => p6 (by
                rcases List.mem_cons.mp hel with h | h
                · exact absurd h.symm hde
                · exact h) hrem⟩
            · rw [p2]
              show (iommu_pagecache_entry_remove s d en').dmapages en.dmapage
                = s.dmapages en.dmapage
              rw [hrm]
              exact if_neg (fun h => hdmne h.symm)
            · by_cases hxd : x = d
              · refine Or.inr ?_
                rcases (cleanWalk_frame K rest
                    { iommu_pagecache_entry_remove s d en' with
                      heap := fun y => if y = d then none
                        else (iommu_pagecache_entry_remove s d en').heap y }
                    (iommu_pagecache_unmap_add b en'.dmapage)
                    (removed + 1)).1 x with h1 | h1
                · rw [h1]
                  show (if x = d then none else
                    (iommu_pagecache_entry_remove s d en').heap x) = none
                  rw [if_pos hxd]
                · exact h1
              · exact p3 x (hstep x hx hxd)

/-- A full eviction pass cannot take an entry whose count is nonzero: the
entry keeps its heap record (count restored), both its index slots, stays
reachable from one of the FIFO halves, its dma page reaches no unmap
call, and if it was walked it was pushed back onto the add-half. -/
theorem clean_stuck (s : St) (K : Int) (e : Nat) (en : Entry)
    (hcnt : en.count ≠ 0) (hstuck : entryStuck s e en) :
    entryStuck (iommu_pagecache_clean s K).1 e en ∧
    (iommu_pagecache_clean s K).1.pageShift = s.pageShift ∧
    eventsCoverage (iommu_pagecache_clean s K).1.pageShift en.dmapage
      (iommu_pagecache_clean s K).2 = 0 ∧
    (e ∈ s.fifoDel → e ∉ (iommu_pagecache_clean s K).1.fifoDel →
      e ∈ (iommu_pagecache_clean s K).1.fifoAdd) := by
  obtain ⟨hheap, hdm, hcp, hfifo, hdisj⟩ := hstuck
  unfold iommu_pagecache_clean
  cases hfd : s.fifoDel with
  | nil =>
    exact ⟨⟨hheap, hdm, hcp, hfifo, hdisj⟩, rfl, rfl,
      fun hel _ => absurd hel (List.not_mem_nil e)⟩
  | cons d rest =>
    have hmem : ∀ d' ∈ (d :: rest : List Nat), d' ∈ s.fifoAdd ++ s.fifoDel := by
      intro d' hd'
      rw [hfd]
      exact List.mem_append_right _ hd'
    obtain ⟨p1, p2, p3, p4, p5, p6⟩ :=
      cleanWalk_preserve K e en hcnt (d :: rest) { s with fifoDel := [] } [] 0
        hheap hcp (fun d' hd' hne => hdisj d' (hmem d' hd') hne)
    obtain ⟨f1, f2, f3, f4, f5, f6⟩ :=
      cleanWalk_frame K (d :: rest) { s with fifoDel := [] } [] 0
    refine ⟨⟨p1, p2.trans hdm, ?_, ?_, ?_⟩, f5, ?_, fun hel hnel => p6 hel hnel⟩
    · show e ∈ (cleanWalk K (d :: rest)
        { s with fifoDel := [] } [] 0).1.cpupages en.cpupage
      rcases p3 e hcp with h | h
      · exact h
      · rw [p1] at h
        exact Option.noConfusion h
    · rcases hfifo with h | h
      · exact Or.inl (p5 e h)
      · rw [hfd] at h
        by_cases hrem : e ∈ (cleanWalk K (d :: rest)
            { s with fifoDel := [] } [] 0).2.2
        · exact Or.inr hrem
        · exact Or.inl (p6 h hrem)
    · intro d' hd' hne
      have hd2 : d' ∈ (cleanWalk K (d :: rest)
            { s with fifoDel := [] } [] 0).1.fifoAdd ∨
          d' ∈ (cleanWalk K (d :: rest) { s with fifoDel := [] } [] 0).2.2 := by
        rcases List.mem_append.mp hd' with h | h
        · exact Or.inl h
        · exact Or.inr h
      have hmem2 : d' ∈ s.fifoAdd ++ s.fifoDel := by
        rcases hd2 with h | h
        · rcases f2 d' h with h2 | h2
          · exact List.mem_append_left _ h2
          · rw [hfd]
            exact List.mem_append_right _ h2
        · rw [hfd]
          exact List.mem_append_right _ (f3 d' h)
      have horig := hdisj d' hmem2 hne
      rcases f1 d' with h1 | h1
      · refine ⟨?_, fun hcp' => ?_⟩
        · show Option.map Entry.dmapage ((cleanWalk K (d :: rest)
              { s with fifoDel := [] } [] 0).1.heap d') ≠ some en.dmapage
          rw [h1]
          exact horig.1
        · have hcp2 : Option.map Entry.cpupage ((cleanWalk K (d :: rest)
              { s with fifoDel := [] } [] 0).1.heap d') = some en.cpupage :=
            hcp'
          rw [h1] at hcp2
          rcases p3 d' (horig.2 hcp2) with h2 | h2
          · show d' ∈ (cleanWalk K (d :: rest)
                { s with fifoDel := [] } [] 0).1.cpupages en.cpupage
            exact h2
          · exfalso
            have hcp3 : Option.map Entry.cpupage ((cleanWalk K (d :: rest)
                { s with fifoDel := [] } [] 0).1.heap d') = some en.cpupage :=
              hcp'
            rw [h2] at hcp3
            simp at hcp3
      · refine ⟨?_, fun hcp' => ?_⟩
        · show Option.map Entry.dmapage ((cleanWalk K (d :: rest)
              { s with fifoDel := [] } [] 0).1.heap d') ≠ some en.dmapage
          rw [h1]
          simp
        · exfalso
          have hcp3 : Option.map Entry.cpupage ((cleanWalk K (d :: rest)
              { s with fifoDel := [] } [] 0).1.heap d') = some en.cpupage :=
            hcp'
          rw [h1] at hcp3
          simp at hcp3
    · exact (eventsCoverage_unmap _ _ _).trans p4

/-! ## Claim C2 -/

/-- C2: whenever iommu_pagecache_use reports DMA_MAPPING_ERROR, the cache
state — in particular the count of every cached entry, the offset-0 entry
of every attempted range included — is exactly what it was before the
call: every successful try_acquire of a failed range attempt is undone by a
decrement before the failure is reported. -/
theorem C2_use_notfound_restores_counts (s : St) (page npages : Nat)
    (dir : Dir) (h : (iommu_pagecache_use s page npages dir).1 = none) :
    (iommu_pagecache_use s page npages dir).2 = s := by
  apply useChain_none (page >>> s.pageShift) npages dir
    (s.cpupages (page >>> s.pageShift)) s
  show iommu_pagecache_use s page npages dir = _
  rw [← h]

/-- Witness for C2: a request whose first page (0x1000 → 0xD000) is cached
but whose second page is not is rejected with the state, hence the first
page's count, unchanged. -/
theorem C2_use_notfound_restores_counts_witness :
    (iommu_pagecache_use exSmall 0x1000 2 Dir.DMA_TO_DEVICE).1 = none ∧
    (iommu_pagecache_use exSmall 0x1000 2 Dir.DMA_TO_DEVICE).2 = exSmall :=
  ⟨by decide, C2_use_notfound_restores_counts exSmall 0x1000 2
      Dir.DMA_TO_DEVICE (by decide)⟩

/-! ## Claim C8 -/

/-- C8: with the cache disabled (max_cachesize = 0) the header wrappers
turn add into a no-op, use into DMA_MAPPING_ERROR without touching the
cache, and free into a direct forward of its dma_handle and npages to
__iommu_free. -/
theorem C8_disabled_wrappers (s : St) (page npages addr dmaHandle : Nat)
    (dir : Dir) (h : s.maxCachesize = 0) :
    iommu_pagecache_add_hdr s page npages addr dir = s ∧
    iommu_pagecache_use_hdr s page npages dir = (none, s) ∧
    iommu_pagecache_free_hdr s dmaHandle npages =
      (s, [Event.unmapCall dmaHandle npages]) := by
  refine ⟨?_, ?_, ?_⟩ <;>
    simp [iommu_pagecache_add_hdr, iommu_pagecache_use_hdr,
          iommu_pagecache_free_hdr, h]

/-- Witness for C8: a table with it_size = 1 gets max_cachesize = 0 at
init, and the three wrappers behave as stated. -/
theorem C8_disabled_wrappers_witness :
    (iommu_pagecache_init 12 1).maxCachesize = 0 ∧
    iommu_pagecache_add_hdr (iommu_pagecache_init 12 1) 0x1000 3 0xD000
      Dir.DMA_TO_DEVICE = iommu_pagecache_init 12 1 ∧
    iommu_pagecache_use_hdr (iommu_pagecache_init 12 1) 0x1000 3
      Dir.DMA_TO_DEVICE = (none, iommu_pagecache_init 12 1) ∧
    iommu_pagecache_free_hdr (iommu_pagecache_init 12 1) 0xD000 3 =
      (iommu_pagecache_init 12 1, [Event.unmapCall 0xD000 3]) := by
  have h := C8_disabled_wrappers (iommu_pagecache_init 12 1) 0x1000 3 0xD000
    0xD000 Dir.DMA_TO_DEVICE (by decide)
  exact ⟨by decide, h.1, h.2.1, h.2.2⟩

/-! ## Claim C7 -/

/-- Counterexample to C7: adding 0x2000 → 0xD000 while 0xD is already
mapped (entry 1, for host page 1) is not aborted and not rolled back: the
xa_store silently rebinds the dmapages slot 0xD to the freshly allocated
entry 2 (host page 2), the insertion continues into the chain and the FIFO
add-half, and the pre-existing entry 1 stays allocated without its index
slot. -/
theorem C7_counterexample :
    exDouble.dmapages 0xD = some 2 ∧
    exDouble.heap 2 = some ⟨0xD, 0x2, 1, Dir.DMA_TO_DEVICE⟩ ∧
    exDouble.heap 1 = some ⟨0xD, 0x1, 1, Dir.DMA_TO_DEVICE⟩ ∧
    exDouble.cpupages 0x2 = [2] ∧
    exDouble.fifoAdd = [2, 1, 0] := by
  decide

/-- C7 amended: add for an already-present DMA page is not treated as a
conflict: xa_store replaces the binding with the new entry and the
insertion proceeds normally (chain publication, FIFO append, cachesize
pre-increment); the pre-existing entry is left allocated, merely losing
its dmapages slot; nothing is rolled back and no diagnostic exists in the
code. -/
theorem C7_amended_silent_replace (s : St) (page addr : Nat) (dir : Dir)
    (old : Nat) (_hold : s.dmapages (addr >>> s.pageShift) = some old)
    (hfresh : old ≠ s.nextId) :
    let k := addr >>> s.pageShift
    let p := page >>> s.pageShift
    let s' := iommu_pagecache_add s page 1 addr dir
    s'.dmapages k = some s.nextId ∧
    s'.heap s.nextId = some ⟨k, p, 1, dir⟩ ∧
    s'.heap old = s.heap old ∧
    s'.cpupages p = s.nextId :: s.cpupages p ∧
    s'.fifoAdd = s.nextId :: s.fifoAdd ∧
    s'.cachesize = s.cachesize + 1 := by
  intro k p s'
  have hne : old ≠ s.nextId := hfresh
  refine ⟨?_, ?_, ?_, ?_, ?_, ?_⟩ <;>
    simp [s', iommu_pagecache_add, addLoop, updO, updC, k, p,
          Ne.symm hne, hne]

/-- Witness for C7's amended statement, at the double-add state. -/
theorem C7_amended_silent_replace_witness :
    (iommu_pagecache_add exSmall 0x2000 1 0xD000 Dir.DMA_TO_DEVICE).dmapages
        0xD = some exSmall.nextId ∧
    (iommu_pagecache_add exSmall 0x2000 1 0xD000 Dir.DMA_TO_DEVICE).heap 1 =
      exSmall.heap 1 := by
  have h := C7_amended_silent_replace exSmall 0x2000 0xD000
    Dir.DMA_TO_DEVICE 1 (by decide) (by decide)
  exact ⟨h.1, h.2.2.1⟩

/-! ## Claim C9 -/

/-- Counterexample to C9: with the single mapping 0x1000 → 0xD000 cached,
use with npages = 0 is not a no-op and does not return NOT_FOUND: it
returns the cached DMA address 0xD000 and increments the entry's count
from 1 to 2. -/
theorem C9_counterexample :
    (iommu_pagecache_use exSmall 0x1000 0 Dir.DMA_TO_DEVICE).1 =
      some 0xD000 ∧
    ((iommu_pagecache_use exSmall 0x1000 0 Dir.DMA_TO_DEVICE).2.heap 1) =
      some ⟨0xD, 0x1, 2, Dir.DMA_TO_DEVICE⟩ ∧
    exSmall.heap 1 = some ⟨0xD, 0x1, 1, Dir.DMA_TO_DEVICE⟩ := by
  decide

/-- C9 amended: npages = 0 makes add a complete no-op and makes the
per-page part of free empty, but free still performs the eviction-budget
check (a no-op overall only when cachesize ≤ max_cachesize; over budget it
still invokes the evictor), and a 0-page range acquisition behaves exactly
like a 1-page one, so use with npages = 0 can succeed and acquire the
entry rather than returning NOT_FOUND. -/
theorem C9_amended_npages_zero (s : St) (page addr dmaHandle d : Nat)
    (dir : Dir) :
    iommu_pagecache_add s page 0 addr dir = s ∧
    (s.cachesize ≤ (s.maxCachesize : Int) →
      iommu_pagecache_free s dmaHandle 0 = (s, [])) ∧
    (s.cachesize > (s.maxCachesize : Int) →
      Event.cleanCall (s.cachesize - (s.maxCachesize : Int) +
        IOMMU_CACHE_THRES) ∈ (iommu_pagecache_free s dmaHandle 0).2) ∧
    iommu_pagecache_use_range s d 0 dir = iommu_pagecache_use_range s d 1 dir := by
  refine ⟨?_, ?_, ?_, rfl⟩
  · cases s
    simp [iommu_pagecache_add, addLoop]
  · intro hle
    unfold iommu_pagecache_free
    simp only [freeLoop]
    have : ¬ (s.cachesize - (s.maxCachesize : Int) > 0) := by omega
    simp [this]
  · intro hgt
    unfold iommu_pagecache_free
    simp only [freeLoop]
    have : s.cachesize - (s.maxCachesize : Int) > 0 := by omega
    simp [this]

/-- Witness for C9's amended statement: add and free with npages = 0 on
the in-budget one-entry cache are no-ops, while free with npages = 0 on
the over-budget cache still triggers an eviction pass requesting
1 + 128 = 129 entries. -/
theorem C9_amended_npages_zero_witness :
    iommu_pagecache_add exSmall 0x9000 0 0xF000 Dir.DMA_FROM_DEVICE =
      exSmall ∧
    iommu_pagecache_free exSmall 0xF000 0 = (exSmall, []) ∧
    Event.cleanCall 129 ∈ (iommu_pagecache_free exBig 0xF000 0).2 := by
  have h1 := C9_amended_npages_zero exSmall 0x9000 0xF000 0xF000 7
    Dir.DMA_FROM_DEVICE
  have h2 := C9_amended_npages_zero exBig 0x9000 0xF000 0xF000 7
    Dir.DMA_FROM_DEVICE
  refine ⟨h1.1, h1.2.1 (by decide), ?_⟩
  have := h2.2.2.1 (by decide)
  simpa using this

/-! ## Characterisation of the insertion loop -/

/-- What addLoop publishes: for each offset `j` of the remaining `n`, a
fresh entry with id `nextId + j` appears in the heap, owns the dmapages
slot `dm + i + j`, and heads the cpupages chain at `cp + i + j`; every
other slot is untouched. -/
theorem addLoop_spec (cp dm : Nat) (dir : Dir) :
    ∀ (n i : Nat) (s : St),
      (addLoop cp dm dir i n s).nextId = s.nextId + n ∧
      (∀ j, j < n →
        (addLoop cp dm dir i n s).dmapages (dm + i + j) = some (s.nextId + j)) ∧
      (∀ k, (∀ j, j < n → k ≠ dm + i + j) →
        (addLoop cp dm dir i n s).dmapages k = s.dmapages k) ∧
      (∀ j, j < n →
        (addLoop cp dm dir i n s).heap (s.nextId + j) =
          some ⟨dm + i + j, cp + i + j, 1, dir⟩) ∧
      (∀ x, (∀ j, j < n → x ≠ s.nextId + j) →
        (addLoop cp dm dir i n s).heap x = s.heap x) ∧
      (∀ j, j < n →
        (addLoop cp dm dir i n s).cpupages (cp + i + j) =
          (s.nextId + j) :: s.cpupages (cp + i + j)) ∧
      (∀ k, (∀ j, j < n → k ≠ cp + i + j) →
        (addLoop cp dm dir i n s).cpupages k = s.cpupages k) ∧
      (addLoop cp dm dir i n s).pageShift = s.pageShift ∧
      (addLoop cp dm dir i n s).cachesize = s.cachesize ∧
      (addLoop cp dm dir i n s).maxCachesize = s.maxCachesize := by
  intro n
  induction n with
  | zero =>
    intro i s
    exact ⟨rfl, fun j hj => absurd hj (by omega), fun k _ => rfl,
           fun j hj => absurd hj (by omega), fun x _ => rfl,
           fun j hj => absurd hj (by omega), fun k _ => rfl, rfl, rfl, rfl⟩
  | succ n ih =>
    intro i s
    rw [addLoop]
    obtain ⟨ihnext, ihdm, ihdmfr, ihheap, ihheapfr, ihcp, ihcpfr, ihps, ihcs,
        ihmax⟩ :=
      ih (i + 1)
        { s with
          heap := fun x => if x = s.nextId then
            some ⟨dm + i, cp + i, 1, dir⟩ else s.heap x,
          dmapages := updO s.dmapages (dm + i) (some s.nextId),
          cpupages := updC s.cpupages (cp + i) (s.nextId :: s.cpupages (cp + i)),
          fifoAdd := s.nextId :: s.fifoAdd,
          nextId := s.nextId + 1 }
    refine ⟨?_, ?_, ?_, ?_, ?_, ?_, ?_, ihps, ihcs, ihmax⟩
    · rw [ihnext]
      show s.nextId + 1 + n = s.nextId + (n + 1)
      omega
    · intro j hj
      match j with
      | 0 =>
        rw [ihdmfr (dm + i + 0) (fun j' hj' => by
          show dm + i + 0 ≠ dm + (i + 1) + j'
          omega)]
        show updO s.dmapages (dm + i) (some s.nextId) (dm + i + 0) =
          some (s.nextId + 0)
        simp [updO]
      | j' + 1 =>
        have h1 : dm + i + (j' + 1) = dm + (i + 1) + j' := by omega
        have h2 : s.nextId + (j' + 1) = s.nextId + 1 + j' := by omega
        rw [h1, h2]
        exact ihdm j' (by omega)
    · intro k hk
      rw [ihdmfr k (fun j' hj' => by
        have := hk (j' + 1) (by omega)
        omega)]
      have hne : k ≠ dm + i := by
        have := hk 0 (by omega)
        omega
      show updO s.dmapages (dm + i) (some s.nextId) k = s.dmapages k
      simp [updO, hne]
    · intro j hj
      match j with
      | 0 =>
        rw [ihheapfr (s.nextId + 0) (fun j' hj' => by
          show s.nextId + 0 ≠ s.nextId + 1 + j'
          omega)]
        show (if s.nextId + 0 = s.nextId then
            some (⟨dm + i, cp + i, 1, dir⟩ : Entry) else s.heap (s.nextId + 0)) =
          some ⟨dm + i + 0, cp + i + 0, 1, dir⟩
        simp
      | j' + 1 =>
        have h1 : s.nextId + (j' + 1) = s.nextId + 1 + j' := by omega
        have h2 : dm + i + (j' + 1) = dm + (i + 1) + j' := by omega
        have h3 : cp + i + (j' + 1) = cp + (i + 1) + j' := by omega
        rw [h1, h2, h3]
        exact ihheap j' (by omega)
    · intro x hx
      rw [ihheapfr x (fun j' hj' => by
        have := hx (j' + 1) (by omega)
        show x ≠ s.nextId + 1 + j'
        omega)]
      have hne : x ≠ s.nextId := by
        have := hx 0 (by omega)
        omega
      show (if x = s.nextId then
          some (⟨dm + i, cp + i, 1, dir⟩ : Entry) else s.heap x) = s.heap x
      simp [hne]
    · intro j hj
      match j with
      | 0 =>
        rw [ihcpfr (cp + i + 0) (fun j' hj' => by
          show cp + i + 0 ≠ cp + (i + 1) + j'
          omega)]
        show updC s.cpupages (cp + i) (s.nextId :: s.cpupages (cp + i))
            (cp + i + 0) = (s.nextId + 0) :: s.cpupages (cp + i + 0)
        simp [updC]
      | j' + 1 =>
        have h1 : cp + i + (j' + 1) = cp + (i + 1) + j' := by omega
        have h2 : s.nextId + (j' + 1) = s.nextId + 1 + j' := by omega
        rw [h1, h2, ihcp j' (by omega)]
        have hne : cp + (i + 1) + j' ≠ cp + i := by omega
        show _ :: updC s.cpupages (cp + i) (s.nextId :: s.cpupages (cp + i))
            (cp + (i + 1) + j') = _
        simp [updC, hne]
    · intro k hk
      rw [ihcpfr k (fun j' hj' => by
        have := hk (j' + 1) (by omega)
        omega)]
      have hne : k ≠ cp + i := by
        have := hk 0 (by omega)
        omega
      show updC s.cpupages (cp + i) (s.nextId :: s.cpupages (cp + i)) k =
        s.cpupages k
      simp [updC, hne]

/-- A descending range walk succeeds when every offset of the range is
indexed, matches its cpu page, is direction compatible and has a
non-negative count. -/
theorem useRangeGo_success (dm cp : Nat) (dir : Dir) :
    ∀ (i : Nat) (s : St),
      (∀ j, 1 ≤ j → j ≤ i → ∃ id en, s.dmapages (dm + j) = some id ∧
        s.heap id = some en ∧ en.cpupage = cp + j ∧
        DMA_DIR_COMPAT en.direction dir = true ∧ 0 ≤ en.count) →
      (useRangeGo dm cp dir i s).2 = none := by
  intro i
  induction i with
  | zero => intro s _; rfl
  | succ i ih =>
    intro s hall
    obtain ⟨id, en, hdm, hheap, hcp, hcompat, hcount⟩ :=
      hall (i + 1) (by omega) (by omega)
    rw [useRangeGo]
    simp only [hdm, hheap]
    rw [if_neg (by simp [hcp]), if_neg (by simp [hcompat]),
        if_neg (by
          intro hc
          rw [hc] at hcount
          have : (0 : Int) < IOMMU_CACHE_REMOVING := by decide
          omega)]
    apply ih
    intro j hj1 hj2
    obtain ⟨id', en', hdm', hheap', hcp', hcompat', hcount'⟩ :=
      hall j hj1 (by omega)
    by_cases hid : id' = id
    · subst hid
      refine ⟨id', { en' with count := en'.count + 1 }, by simpa using hdm',
        ?_, hcp', hcompat', by simpa using by omega⟩
      simp [bumpCount, hheap']
    · exact ⟨id', en', by simpa using hdm',
        by rw [bumpCount_heap_ne s 1 hid]; exact hheap', hcp', hcompat',
        hcount'⟩

/-- Direction compatibility is reflexive. -/
theorem DMA_DIR_COMPAT_refl (d : Dir) : DMA_DIR_COMPAT d d = true := by
  cases d <;> decide

/-! ## Claim C4 -/

/-- C4: on a freshly initialised cache, add(h, N, d, dir) followed by
use(h, N, dir) returns the cached DMA address — the stored dma page
shifted left by page_shift, which for a page-aligned d is d itself — and
not DMA_MAPPING_ERROR. -/
theorem C4_add_then_use_round_trip (ps itSize page npages dma : Nat)
    (dir : Dir) (h1 : 1 ≤ npages) (h2 : dma % 2 ^ ps = 0) :
    (iommu_pagecache_use
      (iommu_pagecache_add (iommu_pagecache_init ps itSize) page npages dma dir)
      page npages dir).1 = some dma := by
  have hdvd : (dma >>> ps) <<< ps = dma := by
    rw [Nat.shiftRight_eq_div_pow, Nat.shiftLeft_eq]
    exact Nat.div_mul_cancel (Nat.dvd_of_mod_eq_zero h2)
  obtain ⟨hnext, hdm, hdmfr, hheap, hheapfr, hcp, hcpfr, hps, hcs, hmax⟩ :=
    addLoop_spec (page >>> ps) (dma >>> ps) dir npages 0
      { iommu_pagecache_init ps itSize with
        cachesize := (iommu_pagecache_init ps itSize).cachesize + (npages : Int) }
  show (iommu_pagecache_use
      (addLoop (page >>> ps) (dma >>> ps) dir 0 npages
        { iommu_pagecache_init ps itSize with
          cachesize := (iommu_pagecache_init ps itSize).cachesize + (npages : Int) })
      page npages dir).1 = some dma
  set S := addLoop (page >>> ps) (dma >>> ps) dir 0 npages
    { iommu_pagecache_init ps itSize with
      cachesize := (iommu_pagecache_init ps itSize).cachesize + (npages : Int) }
    with hS
  have hps' : S.pageShift = ps := hps
  have hchain : S.cpupages (page >>> ps) = [1] := hcp 0 (by omega)
  have hheap1 : S.heap 1 =
      some ⟨dma >>> ps, page >>> ps, 1, dir⟩ := hheap 0 (by omega)
  have hdmj : ∀ j, j < npages →
      S.dmapages (dma >>> ps + j) = some (1 + j) := fun j hj => hdm j hj
  have hheapj : ∀ j, j < npages →
      S.heap (1 + j) =
        some ⟨dma >>> ps + j, page >>> ps + j, 1, dir⟩ :=
    fun j hj => hheap j hj
  cases hgo : useRangeGo (dma >>> ps) (page >>> ps) dir (npages - 1)
      (bumpCount S 1 1) with
  | mk S2 res =>
    have hres : res = none := by
      have hall : ∀ j, 1 ≤ j → j ≤ npages - 1 →
          ∃ id en, (bumpCount S 1 1).dmapages (dma >>> ps + j) = some id ∧
            (bumpCount S 1 1).heap id = some en ∧
            en.cpupage = page >>> ps + j ∧
            DMA_DIR_COMPAT en.direction dir = true ∧ 0 ≤ en.count := by
        intro j hj1 hj2
        refine ⟨1 + j, ⟨dma >>> ps + j, page >>> ps + j, 1, dir⟩, ?_, ?_, rfl,
          DMA_DIR_COMPAT_refl dir, by show (0 : Int) ≤ 1; decide⟩
        · rw [bumpCount_dmapages]
          exact hdmj j (by omega)
        · rw [bumpCount_heap_ne S 1 (by omega : (1 : Nat) + j ≠ 1)]
          exact hheapj j (by omega)
      have := useRangeGo_success (dma >>> ps) (page >>> ps) dir (npages - 1)
        (bumpCount S 1 1) hall
      rw [hgo] at this
      exact this
    subst hres
    have huo : iommu_pagecache_use_one S 1 = (true, bumpCount S 1 1) := by
      unfold iommu_pagecache_use_one
      simp only [hheap1]
      rw [if_neg (by decide)]
    have hur : iommu_pagecache_use_range S 1 npages dir = (true, S2) := by
      unfold iommu_pagecache_use_range
      simp only [hheap1, huo, hgo]
    show (useChain (page >>> S.pageShift) npages dir
      (S.cpupages (page >>> S.pageShift)) S).1 = some dma
    rw [hps', hchain, useChain]
    simp only [hheap1]
    rw [if_neg (by simp [DMA_DIR_COMPAT_refl])]
    simp only [hur, hps']
    exact congrArg some hdvd

/-- Witness for C4: the spec's own example, add(0x1000, 4, 0xD000,
TO_DEVICE); use(0x1000, 4, TO_DEVICE) = 0xD000. -/
theorem C4_add_then_use_round_trip_witness :
    1 ≤ 4 ∧ 0xD000 % 2 ^ 12 = 0 ∧
    (iommu_pagecache_use
      (iommu_pagecache_add (iommu_pagecache_init 12 100) 0x1000 4 0xD000
        Dir.DMA_TO_DEVICE) 0x1000 4 Dir.DMA_TO_DEVICE).1 = some 0xD000 :=
  ⟨by decide, by decide,
   C4_add_then_use_round_trip 12 100 0x1000 4 0xD000 Dir.DMA_TO_DEVICE
     (by decide) (by decide)⟩

/-! ## Characterisation of a successful range walk -/

theorem hits_eq_zero (f : Nat → Option Nat) (dm x : Nat) :
    ∀ i, (∀ j, 1 ≤ j → j ≤ i → f (dm + j) ≠ some x) → hits f dm x i = 0 := by
  intro i
  induction i with
  | zero => intro _; rfl
  | succ i ih =>
    intro h
    rw [hits, ih (fun j hj1 hj2 => h j hj1 (by omega)),
        if_neg (h (i + 1) (by omega) (by omega))]

theorem hits_eq_one (f : Nat → Option Nat) (dm x : Nat) :
    ∀ i j0, 1 ≤ j0 → j0 ≤ i → f (dm + j0) = some x →
      (∀ k, 1 ≤ k → k ≤ i → k ≠ j0 → f (dm + k) ≠ some x) →
      hits f dm x i = 1 := by
  intro i
  induction i with
  | zero => intro j0 h1 h2; omega
  | succ i ih =>
    intro j0 h1 h2 hhit huniq
    by_cases hj0 : j0 = i + 1
    · subst hj0
      rw [hits, if_pos hhit,
          hits_eq_zero f dm x i (fun k hk1 hk2 =>
            huniq k hk1 (by omega) (by omega))]
    · rw [hits, if_neg (huniq (i + 1) (by omega) (by omega) (by omega)),
          ih j0 h1 (by omega) hhit
            (fun k hk1 hk2 hk3 => huniq k hk1 (by omega) hk3)]

/-- What a successful descending walk does to the heap: every entry's
count is raised by the number of walked offsets whose dmapages slot holds
it, and every offset of the walk was present, matched its cpu page and was
direction compatible. -/
theorem useRangeGo_success_char (dm cp : Nat) (dir : Dir) :
    ∀ (i : Nat) (s s' : St), useRangeGo dm cp dir i s = (s', none) →
      (∀ x, s'.heap x =
        match s.heap x with
        | none => none
        | some en =>
            some { en with count := en.count + (hits s.dmapages dm x i : Int) }) ∧
      (∀ j, 1 ≤ j → j ≤ i → ∃ d1 en, s.dmapages (dm + j) = some d1 ∧
        s.heap d1 = some en ∧ en.cpupage = cp + j ∧
        DMA_DIR_COMPAT en.direction dir = true) := by
  intro i
  induction i with
  | zero =>
    intro s s' h
    obtain rfl : s = s' := congrArg Prod.fst h
    refine ⟨fun x => ?_, fun j hj1 hj2 => by omega⟩
    cases hx : s.heap x with
    | none => rfl
    | some en => simp [hits]
  | succ i ih =>
    intro s s' h
    rw [useRangeGo] at h
    cases hdm : s.dmapages (dm + (i + 1)) with
    | none => simp only [hdm] at h; exact absurd (congrArg Prod.snd h) (by simp)
    | some d1 =>
      simp only [hdm] at h
      cases hheap : s.heap d1 with
      | none =>
        simp only [hheap] at h
        exact absurd (congrArg Prod.snd h) (by simp)
      | some en =>
        simp only [hheap] at h
        by_cases hcp : en.cpupage ≠ cp + (i + 1)
        · rw [if_pos hcp] at h
          exact absurd (congrArg Prod.snd h) (by simp)
        · rw [if_neg hcp] at h
          by_cases hdir : ¬ DMA_DIR_COMPAT en.direction dir
          · rw [if_pos hdir] at h
            exact absurd (congrArg Prod.snd h) (by simp)
          · rw [if_neg hdir] at h
            by_cases hcnt : en.count = -IOMMU_CACHE_REMOVING
            · rw [if_pos hcnt] at h
              exact absurd (congrArg Prod.snd h) (by simp)
            · rw [if_neg hcnt] at h
              obtain ⟨ihheap, ihside⟩ := ih (bumpCount s d1 1) s' h
              constructor
              · intro x
                have hx := ihheap x
                rw [hits]
                by_cases hxid : x = d1
                · subst hxid
                  rw [bumpCount_heap_self] at hx
                  rw [hheap] at hx
                  simp only at hx
                  rw [hx, hheap]
                  simp only [bumpCount_dmapages, hdm, if_pos rfl]
                  congr 1
                  congr 1
                  push_cast
                  ring
                · rw [bumpCount_heap_ne s 1 hxid] at hx
                  rw [hx]
                  have : s.dmapages (dm + (i + 1)) ≠ some x := by
                    rw [hdm]
                    simp
                    omega
                  simp only [bumpCount_dmapages, if_neg this, Nat.zero_add]
              · intro j hj1 hj2
                by_cases hji : j = i + 1
                · subst hji
                  refine ⟨d1, en, hdm, hheap, ?_, ?_⟩
                  · push_neg at hcp
                    exact hcp
                  · simpa using hdir
                · obtain ⟨d1', en', hdm', hheap', hcp', hcompat'⟩ :=
                    ihside j hj1 (by omega)
                  rw [bumpCount_dmapages] at hdm'
                  by_cases hid' : d1' = d1
                  · rw [hid'] at hdm' hheap'
                    rw [bumpCount_heap_self, hheap] at hheap'
                    simp only at hheap'
                    have hen' : en' = { en with count := en.count + 1 } := by
                      injection hheap' with h'
                      exact h'.symm
                    refine ⟨d1, en, hdm', hheap, ?_, ?_⟩
                    · rw [hen'] at hcp'
                      exact hcp'
                    · rw [hen'] at hcompat'
                      exact hcompat'
                  · rw [bumpCount_heap_ne s 1 hid'] at hheap'
                    exact ⟨d1', en', hdm', hheap', hcp', hcompat'⟩

theorem heap_match_zero (o : Option Entry) :
    (match o with
     | none => none
     | some en => some { en with count := en.count + ((0 : Nat) : Int) }) = o := by
  cases o with
  | none => rfl
  | some en => simp

/-! ## Claim C3 -/

/-- C3: when a range acquisition succeeds, the acquisition for every offset
j in [1, N) was performed on the entry found in the DMA-page index at key
e.dma_page + j — which exists, carries host page e.host_page + j and a
compatible direction — and each member of the range, the offset-0 entry d
included, has its own count incremented exactly once; every entry outside
the range is untouched.  (Stated for a range whose slots hold pairwise
distinct entries not aliasing d, which add guarantees.) -/
theorem C3_use_range_acquires_each_member (s s' : St) (d npages : Nat)
    (dir : Dir) (en : Entry)
    (hok : iommu_pagecache_use_range s d npages dir = (true, s'))
    (hen : s.heap d = some en)
    (hnotd : ∀ j, j < npages → 1 ≤ j → s.dmapages (en.dmapage + j) ≠ some d)
    (hinj : ∀ j, j < npages → ∀ k, k < npages → 1 ≤ j → 1 ≤ k → j ≠ k →
      s.dmapages (en.dmapage + j) = none ∨
      s.dmapages (en.dmapage + j) ≠ s.dmapages (en.dmapage + k)) :
    s'.heap d = some { en with count := en.count + 1 } ∧
    (∀ j, j < npages → 1 ≤ j → ∃ x enj,
      s.dmapages (en.dmapage + j) = some x ∧ x ≠ d ∧
      s.heap x = some enj ∧ enj.cpupage = en.cpupage + j ∧
      DMA_DIR_COMPAT enj.direction dir = true ∧
      s'.heap x = some { enj with count := enj.count + 1 }) ∧
    (∀ x, x ≠ d → (∀ j, j < npages → 1 ≤ j →
        s.dmapages (en.dmapage + j) ≠ some x) →
      s'.heap x = s.heap x) := by
  unfold iommu_pagecache_use_range at hok
  simp only [hen] at hok
  cases huo : iommu_pagecache_use_one s d with
  | mk ok s1 =>
    cases ok with
    | false =>
      rw [huo] at hok
      exact absurd (congrArg Prod.fst hok) (by simp)
    | true =>
      have hs1 : s1 = bumpCount s d 1 := by
        have := useOne_true s d (by rw [huo])
        rw [huo] at this
        exact this
      simp only [huo] at hok
      rw [hs1] at hok
      cases hgo : useRangeGo en.dmapage en.cpupage dir (npages - 1)
          (bumpCount s d 1) with
      | mk s2 res =>
        cases res with
        | some j =>
          simp only [hgo] at hok
          exact absurd (congrArg Prod.fst hok) (by simp)
        | none =>
          simp only [hgo] at hok
          obtain rfl : s2 = s' := congrArg Prod.snd hok
          obtain ⟨hch, hside⟩ := useRangeGo_success_char en.dmapage en.cpupage
            dir (npages - 1) (bumpCount s d 1) s2 hgo
          have hzero_d : hits (bumpCount s d 1).dmapages en.dmapage d
              (npages - 1) = 0 := by
            rw [bumpCount_dmapages]
            exact hits_eq_zero s.dmapages en.dmapage d (npages - 1)
              (fun j hj1 hj2 => hnotd j (by omega) hj1)
          refine ⟨?_, ?_, ?_⟩
          · have hd := hch d
            rw [bumpCount_heap_self, hen] at hd
            simp only at hd
            rw [hzero_d] at hd
            rw [hd]
            congr 1
            congr 1
            push_cast
            ring
          · intro j hj1 hj2
            obtain ⟨x, enj', hdm', hheap', hcp', hcompat'⟩ :=
              hside j hj2 (by omega)
            rw [bumpCount_dmapages] at hdm'
            have hxd : x ≠ d := by
              intro hxd
              rw [hxd] at hdm'
              exact hnotd j hj1 hj2 hdm'
            rw [bumpCount_heap_ne s 1 hxd] at hheap'
            have hone : hits (bumpCount s d 1).dmapages en.dmapage x
                (npages - 1) = 1 := by
              rw [bumpCount_dmapages]
              refine hits_eq_one s.dmapages en.dmapage x (npages - 1) j hj2
                (by omega) hdm' ?_
              intro k hk1 hk2 hk3 hk4
              rcases hinj j hj1 k (by omega) hj2 hk1 (by omega) with hh | hh
              · rw [hh] at hdm'
                exact Option.noConfusion hdm'
              · rw [hdm', hk4] at hh
                exact hh rfl
            have hx := hch x
            rw [bumpCount_heap_ne s 1 hxd, hheap', hone] at hx
            simp only at hx
            exact ⟨x, enj', hdm', hxd, hheap', hcp', hcompat', by
              rw [hx]
              norm_num⟩
          · intro x hxd hxout
            have hzero : hits (bumpCount s d 1).dmapages en.dmapage x
                (npages - 1) = 0 := by
              rw [bumpCount_dmapages]
              exact hits_eq_zero s.dmapages en.dmapage x (npages - 1)
                (fun j hj1 hj2 => hxout j (by omega) hj1)
            have hx := hch x
            rw [bumpCount_heap_ne s 1 hxd, hzero] at hx
            rw [hx]
            exact heap_match_zero (s.heap x)

set_option synthInstance.maxSize 2048 in
/-- Witness for C3: in the 4-page mapping 0x1000 → 0xD000, a successful
4-page acquisition starting at entry 1 raises the count of each of the
four entries 1, 2, 3, 4 from 1 to 2 and leaves the sentinel untouched. -/
theorem C3_use_range_acquires_each_member_witness :
    ((iommu_pagecache_use_range exFour 1 4 Dir.DMA_TO_DEVICE).2).heap 1 =
      some ⟨0xD, 0x1, 2, Dir.DMA_TO_DEVICE⟩ ∧
    (∃ x enj, exFour.dmapages (0xD + 2) = some x ∧ x ≠ 1 ∧
      exFour.heap x = some enj ∧ enj.cpupage = 0x1 + 2 ∧
      DMA_DIR_COMPAT enj.direction Dir.DMA_TO_DEVICE = true ∧
      ((iommu_pagecache_use_range exFour 1 4 Dir.DMA_TO_DEVICE).2).heap x =
        some { enj with count := enj.count + 1 }) ∧
    ((iommu_pagecache_use_range exFour 1 4 Dir.DMA_TO_DEVICE).2).heap 0 =
      exFour.heap 0 := by
  have hok : iommu_pagecache_use_range exFour 1 4 Dir.DMA_TO_DEVICE =
      (true, (iommu_pagecache_use_range exFour 1 4 Dir.DMA_TO_DEVICE).2) := by
    have h1 : (iommu_pagecache_use_range exFour 1 4 Dir.DMA_TO_DEVICE).1 =
        true := by decide
    rw [← h1]
  have h := C3_use_range_acquires_each_member exFour
    (iommu_pagecache_use_range exFour 1 4 Dir.DMA_TO_DEVICE).2 1 4
    Dir.DMA_TO_DEVICE ⟨0xD, 0x1, 1, Dir.DMA_TO_DEVICE⟩ hok (by decide)
    (by decide) (by decide)
  exact ⟨h.1, h.2.1 2 (by decide) (by decide), h.2.2 0 (by decide) (by decide)⟩

/-! ## Claim C5 -/

/-- C5: free invokes the evictor if and only if cachesize strictly exceeds
max_cachesize once free's own decrements (the immediate-unmap flush) are
accounted, and when it does, the requested count is exactly
(cachesize - max_cachesize) + IOMMU_CACHE_THRES with IOMMU_CACHE_THRES
= 128. -/
theorem C5_free_eviction_guard (s : St) (dmaHandle npages : Nat) :
    ((∃ K, Event.cleanCall K ∈ (iommu_pagecache_free s dmaHandle npages).2) ↔
      s.cachesize -
          (countNone s.dmapages (dmaHandle >>> s.pageShift) npages : Int) >
        (s.maxCachesize : Int)) ∧
    ∀ K, Event.cleanCall K ∈ (iommu_pagecache_free s dmaHandle npages).2 →
      K = s.cachesize -
            (countNone s.dmapages (dmaHandle >>> s.pageShift) npages : Int) -
          (s.maxCachesize : Int) + IOMMU_CACHE_THRES := by
  obtain ⟨s2, ev1, _, hnoclean, hcs, hmax, heq⟩ := free_split s dmaHandle npages
  rw [heq]
  by_cases hex : s2.cachesize - (s2.maxCachesize : Int) > 0
  · rw [dif_pos hex]
    refine ⟨⟨fun _ => by omega, fun _ => ?_⟩, fun K hK => ?_⟩
    · exact ⟨_, List.mem_append_right _ (List.mem_cons_self _ _)⟩
    · rcases List.mem_append.mp hK with h1 | h2
      · exact absurd h1 (hnoclean K)
      · rcases List.mem_cons.mp h2 with h3 | h4
        · have := Event.cleanCall.inj h3
          omega
        · exact absurd h4 (cleanCall_notin_clean s2 _ K)
  · rw [dif_neg hex]
    refine ⟨⟨fun hexists => ?_, fun hgt => absurd (by omega :
        s2.cachesize - (s2.maxCachesize : Int) > 0) hex⟩,
      fun K hK => absurd hK (hnoclean K)⟩
    obtain ⟨K, hK⟩ := hexists
    exact absurd hK (hnoclean K)

/-- Witness for C5: with 3 pages cached and max_cachesize = 3 no eviction
pass runs; with 4 pages cached (max_cachesize + 1) one does, requesting
exactly 1 + 128 = 129 entries. -/
theorem C5_free_eviction_guard_witness :
    (¬ ∃ K, Event.cleanCall K ∈ (iommu_pagecache_free exThree 0xD000 1).2) ∧
    (∃ K, Event.cleanCall K ∈ (iommu_pagecache_free exBig 0xD000 1).2) ∧
    ∀ K, Event.cleanCall K ∈ (iommu_pagecache_free exBig 0xD000 1).2 →
      K = 129 := by
  have h3 := C5_free_eviction_guard exThree 0xD000 1
  have h4 := C5_free_eviction_guard exBig 0xD000 1
  refine ⟨fun hex => ?_, h4.1.mpr (by decide), fun K hK => ?_⟩
  · have := h3.1.mp hex
    revert this
    decide
  · have := h4.2 K hK
    rw [this]
    decide

/-! ## Claim C6 -/

/-- Counterexample to C6: free on a DMA page that was never added unmaps it
exactly once, but the shared flush helper also decrements cachesize: on a
fresh cache it drops from 0 to -1 instead of staying unchanged. -/
theorem C6_counterexample :
    (iommu_pagecache_free (iommu_pagecache_init 12 100) 0xD000 1).2 =
      [Event.unmapCall 0xD000 1] ∧
    (iommu_pagecache_free (iommu_pagecache_init 12 100) 0xD000 1).1.cachesize
      = -1 ∧
    (iommu_pagecache_init 12 100).cachesize = 0 := by
  decide

/-- C6 amended: in a free call (that does not push the cache over budget),
every DMA page of the range absent from the DMA-page index is handed to
the external unmap primitive exactly once through the immediate-unmap
batch (and pages present in the index are not unmapped at all), but
cachesize is NOT left unchanged: the flush decrements it by the number of
uncached pages. -/
theorem C6_free_direct_unmap (s : St) (dmaHandle npages : Nat)
    (hno : s.cachesize -
        (countNone s.dmapages (dmaHandle >>> s.pageShift) npages : Int) ≤
      (s.maxCachesize : Int)) :
    (∀ q, eventsCoverage s.pageShift q
        (iommu_pagecache_free s dmaHandle npages).2 =
      if dmaHandle >>> s.pageShift ≤ q ∧
          q < dmaHandle >>> s.pageShift + npages ∧ s.dmapages q = none
      then 1 else 0) ∧
    (iommu_pagecache_free s dmaHandle npages).1.cachesize =
      s.cachesize -
        (countNone s.dmapages (dmaHandle >>> s.pageShift) npages : Int) := by
  obtain ⟨s2, ev1, hcov, _, hcs, hmax, heq⟩ := free_split s dmaHandle npages
  have hex : ¬ (s2.cachesize - (s2.maxCachesize : Int) > 0) := by omega
  rw [heq, dif_neg hex]
  exact ⟨hcov, hcs⟩

/-- Witness for C6's amended statement: freeing the never-added page 0xD on
a fresh cache unmaps it once and decrements cachesize by one. -/
theorem C6_free_direct_unmap_witness :
    eventsCoverage (iommu_pagecache_init 12 100).pageShift 0xD
        (iommu_pagecache_free (iommu_pagecache_init 12 100) 0xD000 1).2 =
      (if 0xD000 >>> (iommu_pagecache_init 12 100).pageShift ≤ 0xD ∧
          0xD < 0xD000 >>> (iommu_pagecache_init 12 100).pageShift + 1 ∧
          (iommu_pagecache_init 12 100).dmapages 0xD = none
       then 1 else 0) ∧
    (iommu_pagecache_free (iommu_pagecache_init 12 100) 0xD000 1).1.cachesize
      = (iommu_pagecache_init 12 100).cachesize -
        (countNone (iommu_pagecache_init 12 100).dmapages
          (0xD000 >>> (iommu_pagecache_init 12 100).pageShift) 1 : Int) := by
  have h := C6_free_direct_unmap (iommu_pagecache_init 12 100) 0xD000 1
    (by decide)
  exact ⟨h.1 0xD, h.2⟩

/-! ## Claim C1 -/

/-- C1: during an eviction pass, every in-use entry (observed prior count
strictly positive) whose claim attempt fails survives intact: its count is
restored (the heap record is unchanged), it still owns its DMA-page index
slot and still sits in its host-page chain, its DMA page is never handed
to the external unmap, it is not freed, and — when it was walked at all
(it left the del-half) — it was re-queued onto the FIFO add-half. -/
theorem C1_evictor_spares_inuse_entry (s : St) (K : Int) (e : Nat)
    (en : Entry) (hcnt : 0 < en.count) (hstuck : entryStuck s e en) :
    entryStuck (iommu_pagecache_clean s K).1 e en ∧
    (iommu_pagecache_clean s K).1.heap e = some en ∧
    eventsCoverage s.pageShift en.dmapage (iommu_pagecache_clean s K).2 = 0 ∧
    (e ∈ s.fifoDel → e ∉ (iommu_pagecache_clean s K).1.fifoDel →
      e ∈ (iommu_pagecache_clean s K).1.fifoAdd) := by
  obtain ⟨h1, h2, h3, h4⟩ := clean_stuck s K e en (by omega) hstuck
  refine ⟨h1, h1.1, ?_, h4⟩
  rw [← h2]
  exact h3

/-- Witness for C1: in the hand-built state whose del-half holds the
in-use entry 1 (count 1) and the idle entry 2 (count 0), a pass removes
only entry 2; entry 1 keeps its record and index slots and moves to the
add-half. -/
theorem C1_evictor_spares_inuse_entry_witness :
    entryStuck (iommu_pagecache_clean exEvict 129).1 1
      ⟨0xD, 0x1, 1, Dir.DMA_TO_DEVICE⟩ ∧
    (iommu_pagecache_clean exEvict 129).1.heap 1 =
      some ⟨0xD, 0x1, 1, Dir.DMA_TO_DEVICE⟩ ∧
    eventsCoverage exEvict.pageShift 0xD
      (iommu_pagecache_clean exEvict 129).2 = 0 ∧
    (1 ∈ exEvict.fifoDel →
      1 ∉ (iommu_pagecache_clean exEvict 129).1.fifoDel →
      1 ∈ (iommu_pagecache_clean exEvict 129).1.fifoAdd) :=
  C1_evictor_spares_inuse_entry exEvict 129 1
    ⟨0xD, 0x1, 1, Dir.DMA_TO_DEVICE⟩ (by decide)
    (by unfold entryStuck; decide)

/-! ## Claim C10 -/

/-- C10: free decrements a cached entry's count unconditionally, with no
positivity check, so over-freeing drives the count negative; and an entry
with a negative count can never be claimed by the evictor (the claim
succeeds only on an observed prior count of exactly 0), so any number of
subsequent eviction passes leave it in the heap, in both indices and in
the FIFO, and never unmap its DMA page. -/
theorem C10_overfreed_entry_never_reclaimed :
    (∀ (s : St) (k d1 : Nat) (en : Entry),
      s.dmapages k = some d1 → s.heap d1 = some en →
      s.cachesize ≤ (s.maxCachesize : Int) →
      (iommu_pagecache_free s (k <<< s.pageShift) 1).1.heap d1 =
        some { en with count := en.count - 1 }) ∧
    (∀ (s : St) (K : Int) (e : Nat) (en : Entry), en.count < 0 →
      entryStuck s e en →
      entryStuck (iommu_pagecache_clean s K).1 e en ∧
      eventsCoverage s.pageShift en.dmapage
        (iommu_pagecache_clean s K).2 = 0 ∧
      (e ∈ s.fifoDel → e ∉ (iommu_pagecache_clean s K).1.fifoDel →
        e ∈ (iommu_pagecache_clean s K).1.fifoAdd)) ∧
    (∀ (K : Int) (m : Nat) (s : St) (e : Nat) (en : Entry), en.count < 0 →
      entryStuck s e en → entryStuck (cleanPasses K m s) e en) := by
  refine ⟨?_, ?_, ?_⟩
  · intro s k d1 en hdm hheap hno
    have hfl : freeLoop ((k <<< s.pageShift) >>> s.pageShift) 1 s [] =
        (decCount s d1, []) := by
      rw [shift_cancel]
      show (match s.dmapages k with
            | some i => freeLoop (k + 1) 0 (decCount s i) []
            | none => freeLoop (k + 1) 0 s (iommu_pagecache_unmap_add [] k)) =
        (decCount s d1, [])
      rw [hdm]
      rfl
    have hex : ¬ ((decCount s d1).cachesize -
        ((decCount s d1).maxCachesize : Int) > 0) := by
      show ¬ (s.cachesize - (s.maxCachesize : Int) > 0)
      omega
    unfold iommu_pagecache_free
    rw [hfl]
    simp only
    rw [if_neg hex]
    show (decCount s d1).heap d1 = some { en with count := en.count - 1 }
    unfold decCount
    rw [bumpCount_heap_self, hheap]
    simp only
    congr 2
  · intro s K e en hneg hstuck
    obtain ⟨h1, h2, h3, h4⟩ := clean_stuck s K e en (by omega) hstuck
    refine ⟨h1, ?_, h4⟩
    rw [← h2]
    exact h3
  · intro K m
    induction m with
    | zero => intro s e en _ hstuck; exact hstuck
    | succ m ih =>
      intro s e en hneg hstuck
      exact ih (iommu_pagecache_clean s K).1 e en hneg
        (clean_stuck s K e en (by omega) hstuck).1

/-- Witness for C10: freeing the idle entry of the one-entry cache drives
its count from 1 to 0 and then (freeing again) to -1 with no check; in the
hand-built state exNeg whose entry 1 has count -1, an eviction pass and
then three more passes leave entry 1 alive, indexed and queued. -/
theorem C10_overfreed_entry_never_reclaimed_witness :
    (iommu_pagecache_free exSmall (0xD <<< exSmall.pageShift) 1).1.heap 1 =
      some ⟨0xD, 0x1, 0, Dir.DMA_TO_DEVICE⟩ ∧
    entryStuck (iommu_pagecache_clean exNeg 129).1 1
      ⟨0xD, 0x1, -1, Dir.DMA_TO_DEVICE⟩ ∧
    entryStuck (cleanPasses 129 4 exNeg) 1
      ⟨0xD, 0x1, -1, Dir.DMA_TO_DEVICE⟩ := by
  have h := C10_overfreed_entry_never_reclaimed
  refine ⟨?_, ?_, ?_⟩
  · exact h.1 exSmall 0xD 1 ⟨0xD, 0x1, 1, Dir.DMA_TO_DEVICE⟩ (by decide)
      (by decide) (by decide)
  · exact (h.2.1 exNeg 129 1 ⟨0xD, 0x1, -1, Dir.DMA_TO_DEVICE⟩ (by decide)
      (by unfold entryStuck; decide)).1
  · exact h.2.2 129 4 exNeg 1 ⟨0xD, 0x1, -1, Dir.DMA_TO_DEVICE⟩ (by decide)
      (by unfold entryStuck; decide)

end IommuCache
